import Mathlib

/- Shallow embedding of the kensys analysis engine: the entity mapper
   (src/analyzer/entity-mapper.ts), the call-dependency analysis and
   dependency-graph construction (src/analyzer/analyzer.ts), and the
   regex-based call extraction of the parser (src/parser/js-parser.ts).

   Strings are modelled by Lean strings over their character lists with
   ASCII case folding; JS `Map`/`Set` objects are modelled as ordered
   association lists with the overwrite-keeps-position semantics of JS
   maps; thrown I/O errors are modelled with `Except`; the `> 0.6`
   floating-point comparison is modelled exactly over the integers. -/

/-- ASCII model of the JS regex class `\s`. -/
def isWsChar (c : Char) : Bool :=
  c = ' ' || c = '\t' || c = '\n' || c = '\r' || c = '\x0b' || c = '\x0c'

/-- The JS regex class `\w`, i.e. `[A-Za-z0-9_]`. -/
def isIdentChar (c : Char) : Bool :=
  (65 ≤ c.toNat && c.toNat ≤ 90) || (97 ≤ c.toNat && c.toNat ≤ 122) ||
    (48 ≤ c.toNat && c.toNat ≤ 57) || c = '_'

/-- The class `[a-z0-9_]` kept by `normalizeName`. -/
def isLowerWordChar (c : Char) : Bool :=
  (97 ≤ c.toNat && c.toNat ≤ 122) || (48 ≤ c.toNat && c.toNat ≤ 57) || c = '_'

/-- The JS regex class `[A-Z]`. -/
def isAsciiUpper (c : Char) : Bool := 65 ≤ c.toNat && c.toNat ≤ 90

/-- ASCII model of JS `toLowerCase` on one character. -/
def jsLower (c : Char) : Char :=
  if isAsciiUpper c then Char.ofNat (c.toNat + 32) else c

/-- JS `toLowerCase` on a string (ASCII model). -/
def jsLowerStr (s : String) : String := ⟨s.data.map jsLower⟩

/-- One character of the JS replace of `([A-Z])` by the same letter with a
    leading underscore (`_$1`). -/
def splitUpper (c : Char) : List Char := if isAsciiUpper c then ['_', c] else [c]

/-- JS replace of every underscore run (`_+`) by a single underscore. -/
def collapseUnderscores : List Char → List Char
  | [] => []
  | [c] => [c]
  | a :: b :: rest =>
    if a = '_' && b = '_' then collapseUnderscores (b :: rest)
    else a :: collapseUnderscores (b :: rest)

/-- Removal of the single leading underscore matched by `^_` in the JS
    replace of `^_|_$`. -/
def dropLeadUnderscore : List Char → List Char
  | [] => []
  | c :: rest => if c = '_' then rest else c :: rest

/-- Removal of the single trailing underscore matched by `_$` in the JS
    replace of `^_|_$`. -/
def dropTailUnderscore : List Char → List Char
  | [] => []
  | [c] => if c = '_' then [] else [c]
  | a :: b :: rest => a :: dropTailUnderscore (b :: rest)

/-- The chain of `normalizeName` (entity-mapper.ts): `toLowerCase`, then
    replace `([A-Z])` with `_$1` (note: this runs on the already
    lower-cased text), then strip `[^a-z0-9_]`, then collapse `_+`, then
    strip `^_|_$`. -/
def normalizeChars (l : List Char) : List Char :=
  dropTailUnderscore (dropLeadUnderscore (collapseUnderscores
    (((l.map jsLower).flatMap splitUpper).filter isLowerWordChar)))

/-- `normalizeName` of entity-mapper.ts. -/
def normalizeName (s : String) : String := ⟨normalizeChars s.data⟩

/-- Substring test on character lists: `sub` occurs contiguously in
    `big`. -/
def hasInfix {α : Type} [BEq α] (big sub : List α) : Bool :=
  match big with
  | [] => sub.isEmpty
  | _ :: rest => sub.isPrefixOf big || hasInfix rest sub

/-- JS `a.includes(b)` on strings: `b` occurs inside `a`. -/
def jsIncludes (a b : String) : Bool := hasInfix a.data b.data

/-- The character count `[...normA].filter(c => normB.includes(c)).length`
    of `isSimilar`: characters of `a` occurring anywhere in `b`, counted
    with their multiplicity in `a`. -/
def charOverlapCount (a b : String) : Nat :=
  (a.data.filter (fun c => b.data.contains c)).length

/-- `isSimilar` of entity-mapper.ts.  The JS comparison
    `common * 2 / (lenA + lenB) > 0.6` is modelled exactly as
    `10 * common > 3 * (lenA + lenB)`. -/
def isSimilar (a b : String) : Bool :=
  let normA := normalizeName a
  let normB := normalizeName b
  if normA == normB then true
  else if jsIncludes normA normB || jsIncludes normB normA then true
  else decide (10 * charOverlapCount normA normB > 3 * (normA.length + normB.length))

/-- The hard-coded synonym table of `findSimilarNames`. -/
def synonymsFor (key : String) : Option (List String) :=
  if key = "money" then some ["coin", "amount", "balance", "value", "price"]
  else if key = "coin" then some ["money", "amount", "balance", "value"]
  else if key = "user" then some ["userData", "userInfo", "profile", "account"]
  else if key = "product" then some ["item", "good", "sku", "commodity"]
  else if key = "transaction" then some ["tx", "transfer", "payment", "order"]
  else if key = "wallet" then some ["account", "ledger", "balance"]
  else none

/-- JS `[...new Set(l)]`: deduplication keeping first occurrences. -/
def jsSetDedup {α : Type} [BEq α] (l : List α) : List α :=
  l.foldl (fun acc x => if acc.contains x then acc else acc ++ [x]) []

/-- A `DataType` record of entity-mapper.ts. -/
structure DataType where
  name : String
  type : String
  fields : List (String × String)
  location : String
  isDatabase : Bool := false
  isAPI : Bool := false
  isBackend : Bool := false
  deriving Repr, DecidableEq

/-- `findSimilarNames` of entity-mapper.ts: the synonym-table channel
    followed by the direct-similarity channel, then set deduplication. -/
def findSimilarNames (name : String) (allTypes : List DataType) : List String :=
  let normalized := normalizeName name
  let withSyn :=
    match synonymsFor normalized with
    | some syns =>
        syns.foldl (fun acc syn =>
          match allTypes.find? (fun t =>
              jsIncludes (normalizeName t.name) syn ||
                jsIncludes syn (normalizeName t.name)) with
          | some matching => acc ++ [matching.name]
          | none => acc) [name]
    | none => [name]
  let withSim := allTypes.foldl (fun acc t =>
    if t.name != name && isSimilar name t.name then acc ++ [t.name] else acc) withSyn
  jsSetDedup withSim

/-- Lexicographic comparison of character lists by code point, the JS
    default string comparison. -/
def lexLeChars : List Char → List Char → Bool
  | [], _ => true
  | _ :: _, [] => false
  | a :: as, b :: bs =>
    if a.toNat < b.toNat then true
    else if b.toNat < a.toNat then false
    else lexLeChars as bs

/-- JS default string order `a <= b`. -/
def jsLe (a b : String) : Bool := lexLeChars a.data b.data

/-- Stable insertion (ascending, JS default string order) used to model
    the in-place `similar.sort()`. -/
def insertLex (a : String) : List String → List String
  | [] => [a]
  | b :: l => if jsLe a b then a :: b :: l else b :: insertLex a l

/-- JS `Array.prototype.sort()` with the default string comparator. -/
def sortLex : List String → List String
  | [] => []
  | a :: l => insertLex a (sortLex l)

/-- Stable insertion for the comparator `(a, b) => b.length - a.length`. -/
def insertByLen (a : String) : List String → List String
  | [] => [a]
  | b :: l => if b.length ≤ a.length then a :: b :: l else b :: insertByLen a l

/-- JS stable `sort((a, b) => b.length - a.length)`. -/
def sortByLenDesc : List String → List String
  | [] => []
  | a :: l => insertByLen a (sortByLenDesc l)

/-- `names.sort((a, b) => b.length - a.length)[0]` of
    `groupEntitiesByMeaning`. -/
def choosePrimary (names : List String) : String := (sortByLenDesc names).headD ""

/-- JS `Map.prototype.set`: overwrite keeps the entry position, a new key
    is appended. -/
def jsMapSet {β : Type} (m : List (String × β)) (k : String) (v : β) :
    List (String × β) :=
  if m.any (fun p => p.1 == k) then
    m.map (fun p => if p.1 == k then (k, v) else p)
  else m ++ [(k, v)]

/-- JS `Map.prototype.has`. -/
def jsMapHas {β : Type} (m : List (String × β)) (k : String) : Bool :=
  m.any (fun p => p.1 == k)

/-- A `Function` record of models/types.ts (the analysis fields used by
    the call-dependency analysis). -/
structure Func where
  name : String
  calls : List String
  calledBy : List String := []
  deriving Repr, DecidableEq

/-- A `FileAnalysis` record of models/types.ts (path and functions; the
    entity mapper only reads the path, the analyzer also the functions). -/
structure FileAnalysis where
  path : String
  functions : List Func
  deriving Repr, DecidableEq

/-- An `EntityMapping` record of entity-mapper.ts. -/
structure EntityMapping where
  primaryName : String
  aliases : List String
  definitions : List DataType
  fieldMappings : List (String × List String)
  warnings : List String
  deriving Repr, DecidableEq

/-- The `fieldMappings` map update: push onto the list at the key
    (`mappings.get(normalized)!.push(...)`). -/
def mapListPush (m : List (String × List String)) (k v : String) :
    List (String × List String) :=
  if jsMapHas m k then m.map (fun p => if p.1 == k then (p.1, p.2 ++ [v]) else p)
  else m ++ [(k, [v])]

/-- `mapFields` of entity-mapper.ts. -/
def mapFields (definitions : List DataType) : List (String × List String) :=
  definitions.foldl (fun m d =>
    d.fields.foldl (fun m p =>
      mapListPush m (normalizeName p.1) (d.name ++ "." ++ p.1)) m) []

/-- JS `Set.prototype.add` on an insertion-ordered string set. -/
def setAdd (s : List String) (x : String) : List String :=
  if s.contains x then s else s ++ [x]

/-- The `fieldTypes` map update of `validateEntity`: add the type text to
    the set at the key. -/
def mapSetInsert (m : List (String × List String)) (k v : String) :
    List (String × List String) :=
  if jsMapHas m k then m.map (fun p => if p.1 == k then (p.1, setAdd p.2 v) else p)
  else m ++ [(k, [v])]

/-- `validateEntity` of entity-mapper.ts. -/
def validateEntity (definitions : List DataType) : List String :=
  if definitions.length < 2 then []
  else
    let fieldTypes := definitions.foldl (fun m d =>
      d.fields.foldl (fun m p => mapSetInsert m (normalizeName p.1) p.2) m) []
    let warnings := fieldTypes.foldl (fun w kv =>
      if kv.2.length > 1 then
        w ++ ["⚠️ Field \"" ++ kv.1 ++ "\" has different types: " ++
          String.intercalate ", " kv.2]
      else w) []
    let fieldCounts := definitions.map (fun d => d.fields.length)
    if (jsSetDedup fieldCounts).length > 1 then
      warnings ++ ["⚠️ Different number of fields: " ++
        String.intercalate ", " (fieldCounts.map toString)]
    else warnings

/-- One step of the `similarityMap` construction of
    `groupEntitiesByMeaning`: the cluster key is the sorted, `_`-joined
    alias list; `similar.sort()` sorts the array in place, so the stored
    alias list is the sorted one. -/
def simMapStep (dataTypes : List DataType) (m : List (String × List String))
    (t : DataType) : List (String × List String) :=
  let similar := findSimilarNames t.name dataTypes
  if similar.length > 1 then
    let sorted := sortLex similar
    let key := String.intercalate "_" sorted
    if jsMapHas m key then m else m ++ [(key, sorted)]
  else m

/-- The first loop of `groupEntitiesByMeaning`: the `similarityMap`. -/
def buildSimilarityMap (dataTypes : List DataType) : List (String × List String) :=
  dataTypes.foldl (simMapStep dataTypes) []

/-- Construction of one `EntityMapping` from a cluster alias list, as in
    the second loop of `groupEntitiesByMeaning`. -/
def mkEntity (names : List String) (dataTypes : List DataType) : EntityMapping :=
  { primaryName := choosePrimary names
    aliases := names
    definitions := dataTypes.filter (fun t => names.contains t.name)
    fieldMappings := mapFields (dataTypes.filter (fun t => names.contains t.name))
    warnings := validateEntity (dataTypes.filter (fun t => names.contains t.name)) }

/-- One step of the second loop of `groupEntitiesByMeaning`: the first
    state component is the `processed` name set, the second the
    `entities` map keyed by primary name. -/
def groupStep (dataTypes : List DataType)
    (st : List String × List (String × EntityMapping))
    (entry : String × List String) :
    List String × List (String × EntityMapping) :=
  if st.1.contains entry.1 then st
  else
    let e := mkEntity entry.2 dataTypes
    (st.1 ++ entry.2, jsMapSet st.2 e.primaryName e)

/-- `groupEntitiesByMeaning` of entity-mapper.ts. -/
def groupEntitiesByMeaning (dataTypes : List DataType) (_allFiles : List FileAnalysis) :
    List EntityMapping :=
  (((buildSimilarityMap dataTypes).foldl (groupStep dataTypes)
    (([] : List String), ([] : List (String × EntityMapping)))).2).map (fun p => p.2)

/-- The fixed type-compatibility table of `areTypesCompatible`. -/
def compatTable : List (String × List String) :=
  [("bigint", ["string", "number", "BigInt"]),
   ("int(11)", ["number", "Int32"]),
   ("varchar", ["string", "String"]),
   ("boolean", ["bool", "Boolean", "boolean"]),
   ("timestamp", ["Date", "DateTime", "string"]),
   ("decimal", ["number", "float", "Decimal"])]

/-- `areTypesCompatible` of entity-mapper.ts. -/
def areTypesCompatible (type1 type2 : String) : Bool :=
  let normalized1 := jsLowerStr type1
  let normalized2 := jsLowerStr type2
  if normalized1 == normalized2 then true
  else compatTable.any (fun kv =>
    jsIncludes normalized1 kv.1 &&
      kv.2.any (fun t => jsIncludes normalized2 (jsLowerStr t)))

/-- The mismatch line pushed by `findTypeMismatches`. -/
def mismatchLine (primary field ty apiField apiType : String) : String :=
  "❌ " ++ primary ++ ": DB field \"" ++ field ++ "\" (" ++ ty ++
    ") vs API field \"" ++ apiField ++ "\" (" ++ apiType ++ ")"

/-- The inner loop of `findTypeMismatches` for one entity: the first
    database-tagged and the first API-tagged definition are compared
    field-by-field (by normalized field name). -/
def entityMismatches (entity : EntityMapping) : List String :=
  match entity.definitions.find? (fun d => d.isDatabase),
        entity.definitions.find? (fun d => d.isAPI) with
  | some dbDef, some apiDef =>
      dbDef.fields.filterMap (fun p =>
        match apiDef.fields.find? (fun q => normalizeName q.1 == normalizeName p.1) with
        | some q =>
            if areTypesCompatible p.2 q.2 then none
            else some (mismatchLine entity.primaryName p.1 p.2 q.1 q.2)
        | none => none)
  | _, _ => []

/-- `findTypeMismatches` of entity-mapper.ts. -/
def findTypeMismatches (entities : List EntityMapping) : List String :=
  entities.flatMap entityMismatches

/-- `generateRecommendations` of entity-mapper.ts. -/
def generateRecommendations (entities : List EntityMapping)
    (mismatches : List String) : List String :=
  let recs := entities.foldl (fun r e =>
    if e.warnings.length > 0 then
      r ++ ["🔧 " ++ e.primaryName ++ ": Standardize naming - use \"" ++
        e.primaryName ++ "\" everywhere instead of " ++
        String.intercalate ", " e.aliases]
    else r) []
  let recs := if mismatches.length > 0 then
      recs ++ ["🔴 Fix " ++ toString mismatches.length ++
        " type mismatches between DB and API"]
    else recs
  if entities.length = 0 then
    recs ++ ["ℹ️ No data entities found. Make sure you have interfaces/types defined."]
  else recs

/-- A `DependencyEdge` record of models/types.ts. -/
structure DependencyEdge where
  «from» : String
  «to» : String
  type : String
  deriving Repr, DecidableEq

/-- A `DependencyNode` record of models/types.ts. -/
structure DependencyNode where
  id : String
  type : String
  name : String
  file : String
  deriving Repr, DecidableEq

/-- The `DependencyGraph` record of models/types.ts; the `nodes` map is
    kept as an insertion-ordered association list. -/
structure DependencyGraph where
  nodes : List (String × DependencyNode)
  edges : List DependencyEdge
  deriving Repr, DecidableEq

/-- The inner resolution loop of `buildDependencyGraph`: the first file
    (in `allFiles` order) declaring a function with the callee name wins
    and yields the composite target id `name@path`. -/
def resolveCallee (files : List FileAnalysis) (called : String) : Option String :=
  match files.find? (fun f => f.functions.any (fun fn => fn.name == called)) with
  | some f => some (called ++ "@" ++ f.path)
  | none => none

/-- The node map of `buildDependencyGraph`. -/
def buildNodes (files : List FileAnalysis) : List (String × DependencyNode) :=
  files.foldl (fun m file =>
    file.functions.foldl (fun m func =>
      let id := func.name ++ "@" ++ file.path
      jsMapSet m id { id := id, type := "function", name := func.name, file := file.path }) m) []

/-- The raw (pre-deduplication) edge list of `buildDependencyGraph`. -/
def buildEdges (files : List FileAnalysis) : List DependencyEdge :=
  files.flatMap (fun file =>
    file.functions.flatMap (fun func =>
      func.calls.filterMap (fun called =>
        (resolveCallee files called).map (fun targetId =>
          { «from» := func.name ++ "@" ++ file.path, «to» := targetId,
            type := "calls" }))))

/-- The `JSON.stringify`-set round trip of `buildDependencyGraph`:
    structural deduplication keeping first occurrences. -/
def dedupEdges (edges : List DependencyEdge) : List DependencyEdge :=
  edges.foldl (fun acc e => if acc.contains e then acc else acc ++ [e]) []

/-- `buildDependencyGraph` of analyzer.ts. -/
def buildDependencyGraph (files : List FileAnalysis) : DependencyGraph :=
  { nodes := buildNodes files, edges := dedupEdges (buildEdges files) }

/-- The `functionMap` of `analyzeCallDependencies`: every function is
    registered under its path-qualified key `path:name` and under its
    bare name (later insertions overwrite the bare-name entry). -/
def buildFunctionMap (files : List FileAnalysis) : List (String × Func) :=
  files.foldl (fun m file =>
    file.functions.foldl (fun m func =>
      jsMapSet (jsMapSet m (file.path ++ ":" ++ func.name) func) func.name func) m) []

/-- `analyzeCallDependencies` of analyzer.ts: for every function the map
    is scanned, and every entry whose function lists the name among its
    calls — other than the entry under the function's own path-qualified
    key — appends its name to `calledBy`. -/
def analyzeCallDependencies (files : List FileAnalysis) : List FileAnalysis :=
  let functionMap := buildFunctionMap files
  files.map (fun file =>
    { file with functions := file.functions.map (fun func =>
        { func with calledBy := func.calledBy ++
            ((functionMap.filter (fun p =>
                p.2.calls.contains func.name &&
                  p.1 != file.path ++ ":" ++ func.name)).map
              (fun p => p.2.name)) }) })

/-- The keyword denylist of `isKeyword` (js-parser.ts). -/
def jsKeywords : List String :=
  ["if", "else", "for", "while", "switch", "case", "return", "break", "continue",
   "const", "let", "var", "function", "class", "new", "throw", "try", "catch",
   "finally", "typeof", "instanceof", "delete", "void", "async", "await",
   "import", "export", "from", "as", "extends", "implements", "interface",
   "enum", "type", "namespace", "declare", "module", "require", "in", "of"]

/-- First character of the call regex `[a-zA-Z_$]`. -/
def isCallStartChar (c : Char) : Bool :=
  (65 ≤ c.toNat && c.toNat ≤ 90) || (97 ≤ c.toNat && c.toNat ≤ 122) ||
    c = '_' || c = '$'

/-- Continuation character of the call regex `[a-zA-Z0-9_$]`. -/
def isCallChar (c : Char) : Bool :=
  isCallStartChar c || (48 ≤ c.toNat && c.toNat ≤ 57)

/-- One attempt of the call regex `([a-zA-Z_$][a-zA-Z0-9_$]*)\s*\(` at the
    current position: maximal identifier, optional whitespace, then an
    opening parenthesis; the remainder starts after the parenthesis. -/
def matchCallAt (l : List Char) : Option (String × List Char) :=
  match l with
  | [] => none
  | c :: rest =>
    if isCallStartChar c then
      let idRest := rest.takeWhile isCallChar
      let after := (rest.drop idRest.length).dropWhile isWsChar
      match after with
      | '(' :: rem => some (⟨c :: idRest⟩, rem)
      | _ => none
    else none

/-- The global scan of the call regex with the keyword filter and the
    duplicate filter of `extractCallsFromText`; on failure the scan
    advances one character, on success it continues after the match. -/
def scanCalls : Nat → List Char → List String → List String
  | 0, _, calls => calls
  | _, [], calls => calls
  | fuel + 1, l, calls =>
    match matchCallAt l with
    | some (name, rem) =>
        let calls := if jsKeywords.contains name || calls.contains name then calls
          else calls ++ [name]
        scanCalls fuel rem calls
    | none =>
        match l with
        | [] => calls
        | _ :: rest => scanCalls fuel rest calls

/-- JS `content.split('\n')` on the character list. -/
def splitLinesChars : List Char → List (List Char)
  | [] => [[]]
  | c :: rest =>
    let r := splitLinesChars rest
    if c = '\n' then [] :: r
    else (c :: r.headD []) :: r.tail

/-- JS `content.split('\n')`. -/
def splitLines (s : String) : List String := (splitLinesChars s.data).map (fun l => ⟨l⟩)

/-- `extractCallsFromText` of js-parser.ts: join the line range, scan the
    call regex, filter keywords, deduplicate. -/
def extractCallsFromText (content : String) (startLine endLine : Nat) : List String :=
  let lines := splitLines content
  let relevantLines := (lines.drop (startLine - 1)).take (endLine - (startLine - 1))
  let text := String.intercalate "\n" relevantLines
  scanCalls text.data.length text.data []

/-- `isDbFile` of entity-mapper.ts. -/
def isDbFile (filePath : String) : Bool :=
  jsIncludes filePath "prisma" || jsIncludes filePath "schema" ||
    jsIncludes filePath "migration" || jsIncludes filePath "database"

/-- `isApiFile` of entity-mapper.ts. -/
def isApiFile (filePath : String) : Bool :=
  jsIncludes filePath "api" || jsIncludes filePath "routes" ||
    jsIncludes filePath "controller" || jsIncludes filePath "handler" ||
    jsIncludes filePath "dto"

/-- `isBackendFile` of entity-mapper.ts. -/
def isBackendFile (filePath : String) : Bool :=
  jsIncludes filePath "service" || jsIncludes filePath "model" ||
    jsIncludes filePath "entity" || jsIncludes filePath "src"

/-- JS `String.prototype.trim` (ASCII model). -/
def jsTrim (l : List Char) : List Char :=
  ((l.dropWhile isWsChar).reverse.dropWhile isWsChar).reverse

/-- The value class `[^;,\n}]` of the field regex of `extractFields`. -/
def isFieldValChar (c : Char) : Bool :=
  !(c = ';' || c = ',' || c = '\n' || c = '}')

/-- The last character of a whitespace run that is not a newline, with
    the run's remainder after it; used for the regex backtracking of
    `\s*` against `[^;,\n}]+` (only a newline is whitespace excluded from
    the value class). -/
def lastNonNlSplit : List Char → Option (Char × List Char)
  | [] => none
  | c :: rest =>
    match lastNonNlSplit rest with
    | some (d, suf) => some (d, suf)
    | none => if c = '\n' then none else some (c, rest)

/-- One attempt of the field regex `(\w+)\s*:\s*([^;,\n}]+)` at the
    current position, including the backtracking of the second `\s*`
    against the value class. -/
def matchFieldAt (l : List Char) : Option (String × String × List Char) :=
  let nm := l.takeWhile isIdentChar
  if nm.isEmpty then none
  else
    let r1 := (l.drop nm.length).dropWhile isWsChar
    match r1 with
    | ':' :: r2 =>
      let w := r2.takeWhile isWsChar
      let rest := r2.drop w.length
      match rest with
      | c :: _ =>
        if isFieldValChar c then
          let v := rest.takeWhile isFieldValChar
          some (⟨nm⟩, ⟨jsTrim v⟩, rest.drop v.length)
        else
          match lastNonNlSplit w with
          | some (d, suf) => some (⟨nm⟩, ⟨jsTrim [d]⟩, suf ++ rest)
          | none => none
      | [] =>
          match lastNonNlSplit w with
          | some (d, suf) => some (⟨nm⟩, ⟨jsTrim [d]⟩, suf)
          | none => none
    | _ => none

/-- The global scan of the field regex of `extractFields`, writing each
    match into the `fields` map. -/
def scanFields : Nat → List Char → List (String × String) → List (String × String)
  | 0, _, m => m
  | _, [], m => m
  | fuel + 1, l, m =>
    match matchFieldAt l with
    | some (n, v, rem) => scanFields fuel rem (jsMapSet m n v)
    | none =>
        match l with
        | [] => m
        | _ :: rest => scanFields fuel rest m

/-- `extractFields` of entity-mapper.ts. -/
def extractFields (body : String) : List (String × String) :=
  scanFields body.data.length body.data []

/-- One attempt of the Prisma field regex `(\w+)\s+(\w+)`. -/
def matchPrismaFieldAt (l : List Char) : Option (String × String × List Char) :=
  let nm := l.takeWhile isIdentChar
  if nm.isEmpty then none
  else
    let r1 := l.drop nm.length
    let w := r1.takeWhile isWsChar
    if w.isEmpty then none
    else
      let r2 := r1.drop w.length
      let ty := r2.takeWhile isIdentChar
      if ty.isEmpty then none
      else some (⟨nm⟩, ⟨ty⟩, r2.drop ty.length)

/-- The global scan of the Prisma field regex of `extractPrismaFields`. -/
def scanPrismaFields : Nat → List Char → List (String × String) → List (String × String)
  | 0, _, m => m
  | _, [], m => m
  | fuel + 1, l, m =>
    match matchPrismaFieldAt l with
    | some (n, v, rem) => scanPrismaFields fuel rem (jsMapSet m n v)
    | none =>
        match l with
        | [] => m
        | _ :: rest => scanPrismaFields fuel rest m

/-- `extractPrismaFields` of entity-mapper.ts. -/
def extractPrismaFields (body : String) : List (String × String) :=
  scanPrismaFields body.data.length body.data []

/-- JS `s.endsWith(suffix)`. -/
def jsEndsWith (s suffix : String) : Bool :=
  suffix.data.reverse.isPrefixOf s.data.reverse

/-- One attempt of the declaration regexes
    `kw\s+(\w+)\s*{([^}]+)}` (interfaces, classes, Prisma models) and
    `kw\s+(\w+)\s*=\s*{([^}]+)}` (type aliases) at the current
    position. -/
def matchDeclAt (kw : List Char) (hasEq : Bool) (l : List Char) :
    Option (String × String × List Char) :=
  if kw.isPrefixOf l then
    let r0 := l.drop kw.length
    let ws1 := r0.takeWhile isWsChar
    if ws1.isEmpty then none
    else
      let r1 := r0.drop ws1.length
      let nm := r1.takeWhile isIdentChar
      if nm.isEmpty then none
      else
        let r2 := (r1.drop nm.length).dropWhile isWsChar
        let r3 := if hasEq then
            match r2 with
            | '=' :: t => some (t.dropWhile isWsChar)
            | _ => none
          else some r2
        match r3 with
        | none => none
        | some r4 =>
          match r4 with
          | '{' :: r5 =>
            let body := r5.takeWhile (fun c => c != '}')
            if body.isEmpty then none
            else
              match r5.drop body.length with
              | '}' :: r6 => some (⟨nm⟩, ⟨body⟩, r6)
              | _ => none
          | _ => none
  else none

/-- The global scan of a declaration regex over the file content. -/
def scanDecls (kw : List Char) (hasEq : Bool) :
    Nat → List Char → List (String × String)
  | 0, _ => []
  | _, [] => []
  | fuel + 1, l =>
    match matchDeclAt kw hasEq l with
    | some (nm, body, rem) => (nm, body) :: scanDecls kw hasEq fuel rem
    | none =>
        match l with
        | [] => []
        | _ :: rest => scanDecls kw hasEq fuel rest

/-- The per-file body of `extractDataTypes`: the four regex scans over the
    file content (interface, type alias, class, and — for `.prisma`
    files — Prisma models, the latter tagged database-only). -/
def extractTypesFromContent (p : String) (content : String) : List DataType :=
  let db := isDbFile p
  let api := isApiFile p
  let be := isBackendFile p
  let cs := content.data
  let mk := fun (kind : String) (pr : String × String) =>
    ({ name := pr.1, type := kind, fields := extractFields pr.2, location := p,
       isDatabase := db, isAPI := api, isBackend := be } : DataType)
  (scanDecls "interface".data false cs.length cs).map (mk "interface") ++
    (scanDecls "type".data true cs.length cs).map (mk "type") ++
    (scanDecls "class".data false cs.length cs).map (mk "class") ++
    (if jsEndsWith p ".prisma" then
      (scanDecls "model".data false cs.length cs).map (fun pr =>
        { name := pr.1, type := "schema", fields := extractPrismaFields pr.2,
          location := p, isDatabase := true })
    else [])

/-- The loop of `extractDataTypes` with the `fs.readFileSync` result
    passed in as an `Except`: a read failure is the thrown I/O error and
    aborts the loop. -/
def extractDataTypesGo (fs : String → Except String String) :
    List FileAnalysis → List DataType → Except String (List DataType)
  | [], acc => .ok acc
  | file :: rest, acc =>
    match fs file.path with
    | .error e => .error e
    | .ok content =>
        extractDataTypesGo fs rest (acc ++ extractTypesFromContent file.path content)

/-- `extractDataTypes` of entity-mapper.ts, over an ambient file system
    modelled as a map from path to read result. -/
def extractDataTypes (fs : String → Except String String)
    (allFiles : List FileAnalysis) : Except String (List DataType) :=
  extractDataTypesGo fs allFiles []

/-- The `DataDictionary` record of entity-mapper.ts. -/
structure DataDictionary where
  entities : List EntityMapping
  typeMismatches : List String
  recommendations : List String
  deriving Repr, DecidableEq

/-- `analyzeEntities` of entity-mapper.ts; the thrown read error of
    `extractDataTypes` propagates. -/
def analyzeEntities (fs : String → Except String String)
    (allFiles : List FileAnalysis) : Except String DataDictionary := do
  let dataTypes ← extractDataTypes fs allFiles
  let entities := groupEntitiesByMeaning dataTypes allFiles
  let typeMismatches := findTypeMismatches entities
  let recommendations := generateRecommendations entities typeMismatches
  pure { entities := entities, typeMismatches := typeMismatches,
         recommendations := recommendations }

/-- Modelled from the spec (claim C6): multiset character overlap with
    minimum multiplicities — the overlap notion the claim attributes to
    `isSimilar`. -/
def specMinOverlap : List Char → List Char → Nat
  | [], _ => 0
  | c :: rest, b =>
    if b.contains c then 1 + specMinOverlap rest (b.erase c)
    else specMinOverlap rest b

/- Concrete corpora used by the scenario theorems below. -/

/-- The `getBalance` fact of Scenario A (two homonymous declarations). -/
def gbFact : Func := { name := "getBalance", calls := [] }

/-- The third-file caller of Scenario A. -/
def checkFundsFact : Func := { name := "checkFunds", calls := ["getBalance"] }

/-- Scenario A corpus: `bank/a.ts` and `bank/b.ts` both declare
    `getBalance`; `bank/c.ts` declares a function calling it.  The list
    is in the sorted order the analyzer's file discovery produces. -/
def corpusA : List FileAnalysis :=
  [⟨"bank/a.ts", [gbFact]⟩, ⟨"bank/b.ts", [gbFact]⟩, ⟨"bank/c.ts", [checkFundsFact]⟩]

/-- The backlinked `getBalance` fact expected in Scenario A. -/
def gbResolved : Func :=
  { name := "getBalance", calls := [], calledBy := ["checkFunds", "checkFunds"] }

/-- The expected Scenario A result of the call-dependency analysis. -/
def corpusAResolved : List FileAnalysis :=
  [⟨"bank/a.ts", [gbResolved]⟩, ⟨"bank/b.ts", [gbResolved]⟩,
   ⟨"bank/c.ts", [checkFundsFact]⟩]

/-- Claim C1, counterexample: in Scenario A the `getBalance` of the
    lexicographically second file `bank/b.ts` does receive `calledBy`
    backlinks (in fact the caller's name twice), contradicting the
    claim that it receives none. -/
theorem C1_counterexample :
    analyzeCallDependencies corpusA = corpusAResolved ∧
    (["checkFunds", "checkFunds"] : List String) ≠ [] := by
  exact ⟨by decide, by decide⟩

/-- Claim C1, amended: in Scenario A exactly one `CallEdge` is produced
    and it targets the `getBalance` of the lexicographically first file;
    however both `getBalance` declarations receive `calledBy` backlinks,
    each listing the caller twice (once through its path-qualified map
    key and once through its bare-name key). -/
theorem C1_amended :
    (buildDependencyGraph corpusA).edges =
      [{ «from» := "checkFunds@bank/c.ts", «to» := "getBalance@bank/a.ts",
         type := "calls" }] ∧
    analyzeCallDependencies corpusA = corpusAResolved := by
  exact ⟨by decide, by decide⟩

/-- Claim C3: the code lower-cases before the uppercase-splitting
    replace, so the replace never fires and `"userData"` normalizes to
    `"userdata"`, not `"user_data"` as the claim states. -/
theorem C3_code_eval :
    normalizeName "userData" = "userdata" ∧ normalizeName "userData" ≠ "user_data" := by
  exact ⟨by decide, by decide⟩

/-- The `Coin` declaration of Scenario C. -/
def coinDecl : DataType :=
  { name := "Coin", type := "interface", fields := [("amount", "number")],
    location := "src/models/coin.ts", isBackend := true }

/-- The `Balance` declaration of Scenario C. -/
def balanceDecl : DataType :=
  { name := "Balance", type := "interface", fields := [("amount", "number")],
    location := "src/models/balance.ts", isBackend := true }

/-- Scenario C corpus: `Coin` and `Balance` with no declaration whose
    name normalizes to `money`. -/
def coinBalanceCorpus : List DataType := [coinDecl, balanceDecl]

/-- Claim C4, counterexample: with only `Coin` and `Balance` declared (no
    name normalizing to `money`), the reconciler does cluster the two
    together, although neither the substring channel nor the 60% overlap
    rule links them — the clustering comes from the synonym table, whose
    `coin` key lists `balance`. -/
theorem C4_counterexample :
    (groupEntitiesByMeaning coinBalanceCorpus []).map (fun e => e.aliases) =
      [["Balance", "Coin"]] ∧
    coinBalanceCorpus.map (fun t => normalizeName t.name) = ["coin", "balance"] ∧
    isSimilar "Coin" "Balance" = false ∧
    isSimilar "Balance" "Coin" = false := by
  exact ⟨by decide, by decide, by decide, by decide⟩

/-- Claim C4, amended: the synonym table is keyed by the normalized
    candidate name itself, and its `coin` key lists `balance`; so `Coin`
    and `Balance` are clustered through the synonym channel even though
    no declaration named `Money`/`money` exists and the direct
    substring/overlap similarity does not link them. -/
theorem C4_amended :
    findSimilarNames "Coin" coinBalanceCorpus = ["Coin", "Balance"] ∧
    findSimilarNames "Balance" coinBalanceCorpus = ["Balance"] ∧
    (groupEntitiesByMeaning coinBalanceCorpus []).map
        (fun e => (e.primaryName, e.aliases)) = [("Balance", ["Balance", "Coin"])] ∧
    jsIncludes (normalizeName "Coin") (normalizeName "Balance") = false ∧
    jsIncludes (normalizeName "Balance") (normalizeName "Coin") = false := by
  exact ⟨by decide, by decide, by decide, by decide, by decide⟩

/-- The unreadable file of the claim C2 scenario. -/
def badFileFA : FileAnalysis := ⟨"bad.ts", []⟩

/-- The readable file of the claim C2 scenario. -/
def goodFileFA : FileAnalysis := ⟨"src/good.ts", []⟩

/-- The ambient file system of the claim C2 scenario: reading `bad.ts`
    fails, reading `src/good.ts` yields an interface declaration. -/
def demoFs : String → Except String String := fun p =>
  if p = "bad.ts" then .error "EACCES: permission denied"
  else if p = "src/good.ts" then .ok "interface Foo {a: string}"
  else .error "ENOENT"

/-- The declaration extracted from the readable file of the C2 scenario. -/
def goodFooType : DataType :=
  { name := "Foo", type := "interface", fields := [("a", "string")],
    location := "src/good.ts", isBackend := true }

/-- Claim C2, counterexample: one unreadable file aborts the whole
    entity run — `extractDataTypes` and `analyzeEntities` both propagate
    the read error, and the declaration of the readable file (which the
    extraction would produce) appears in no catalog. -/
theorem C2_counterexample :
    extractDataTypes demoFs [badFileFA, goodFileFA] =
      Except.error "EACCES: permission denied" ∧
    analyzeEntities demoFs [badFileFA, goodFileFA] =
      Except.error "EACCES: permission denied" ∧
    extractTypesFromContent "src/good.ts" "interface Foo {a: string}" =
      [goodFooType] := by
  exact ⟨by rfl, by rfl, by rfl⟩

/-- Loop lemma for claim C2: if any listed file fails to read, the
    extraction loop surfaces an error whatever has been accumulated. -/
theorem extractDataTypesGo_error (fs : String → Except String String) :
    ∀ (files : List FileAnalysis) (acc : List DataType),
      (∃ f ∈ files, ∃ e, fs f.path = .error e) →
      ∃ e, extractDataTypesGo fs files acc = .error e := by
  intro files
  induction files with
  | nil =>
    intro acc h
    obtain ⟨f, hf, _⟩ := h
    exact absurd hf (List.not_mem_nil f)
  | cons file rest ih =>
    intro acc h
    unfold extractDataTypesGo
    cases hfs : fs file.path with
    | error e => exact ⟨e, rfl⟩
    | ok content =>
      obtain ⟨f, hf, e, he⟩ := h
      rcases List.mem_cons.mp hf with h1 | h1
      · subst h1; rw [hfs] at he; exact absurd he (by simp)
      · exact ih _ ⟨f, h1, e, he⟩

/-- Claim C2, amended: when re-reading any source file fails, the entity
    extraction does not continue per-file — the error propagates and the
    whole run aborts with it, so no declarations at all are returned. -/
theorem C2_amended (fs : String → Except String String) (files : List FileAnalysis)
    (h : ∃ f ∈ files, ∃ e, fs f.path = .error e) :
    ∃ e, extractDataTypes fs files = Except.error e :=
  extractDataTypesGo_error fs files [] h

/-- Witness for claim C2's amended theorem at the concrete scenario. -/
theorem C2_witness :
    (badFileFA ∈ [badFileFA, goodFileFA] ∧
      demoFs badFileFA.path = Except.error "EACCES: permission denied") ∧
    ∃ e, extractDataTypes demoFs [badFileFA, goodFileFA] = Except.error e :=
  ⟨⟨by decide, by rfl⟩,
    C2_amended demoFs [badFileFA, goodFileFA]
      ⟨badFileFA, by decide, "EACCES: permission denied", by rfl⟩⟩

/-- A file whose single function's callee list is extracted from its own
    declaration text — the extraction includes the function's own name. -/
def selfCallFile : FileAnalysis :=
  ⟨"a.ts", [{ name := "foo", calls := extractCallsFromText "function foo() {}" 1 1 }]⟩

/-- Claim C5, counterexample: the call extractor places a function's own
    name in its callee list (it matches the declaration line), and the
    graph builder then emits a `CallEdge` with `from = to`. -/
theorem C5_counterexample :
    extractCallsFromText "function foo() {}" 1 1 = ["foo"] ∧
    (buildDependencyGraph [selfCallFile]).edges =
      [{ «from» := "foo@a.ts", «to» := "foo@a.ts", type := "calls" }] := by
  exact ⟨by decide, by decide⟩

/-- Claim C6, counterexample: `isSimilar "aaa" "ab"` is true although the
    claim's formula (minimum-multiplicity multiset overlap, here 1 of 5
    characters, i.e. 0.4) does not exceed 0.6 — the code counts each
    character of the first name with its own multiplicity instead. -/
theorem C6_counterexample :
    isSimilar "aaa" "ab" = true ∧
    normalizeName "aaa" ≠ normalizeName "ab" ∧
    jsIncludes (normalizeName "aaa") (normalizeName "ab") = false ∧
    jsIncludes (normalizeName "ab") (normalizeName "aaa") = false ∧
    specMinOverlap (normalizeName "aaa").data (normalizeName "ab").data = 1 ∧
    ¬ (10 * specMinOverlap (normalizeName "aaa").data (normalizeName "ab").data >
        3 * ((normalizeName "aaa").length + (normalizeName "ab").length)) := by
  exact ⟨by decide, by decide, by decide, by decide, by decide, by decide⟩

/-- Claim C6, amended: for names whose normalized forms are unequal and
    not substrings of one another, `isSimilar` holds exactly when
    `2 × common / (|A| + |B|) > 0.6`, where `common` counts the
    characters of normalized `A` occurring anywhere in normalized `B`
    with their multiplicity in `A` (not the minimum multiplicity). -/
theorem C6_amended (a b : String)
    (hne : normalizeName a ≠ normalizeName b)
    (h1 : jsIncludes (normalizeName a) (normalizeName b) = false)
    (h2 : jsIncludes (normalizeName b) (normalizeName a) = false) :
    isSimilar a b = true ↔
      10 * charOverlapCount (normalizeName a) (normalizeName b) >
        3 * ((normalizeName a).length + (normalizeName b).length) := by
  have hbeq : (normalizeName a == normalizeName b) = false := by
    simpa using hne
  unfold isSimilar
  simp only [hbeq, h1, h2, Bool.or_self, Bool.false_eq_true, if_false,
    decide_eq_true_eq]

/-- Witness for claim C6's amended theorem at `zuser`/`auser`. -/
theorem C6_witness :
    (normalizeName "zuser" ≠ normalizeName "auser" ∧
      jsIncludes (normalizeName "zuser") (normalizeName "auser") = false ∧
      jsIncludes (normalizeName "auser") (normalizeName "zuser") = false) ∧
    (isSimilar "zuser" "auser" = true ↔
      10 * charOverlapCount (normalizeName "zuser") (normalizeName "auser") >
        3 * ((normalizeName "zuser").length + (normalizeName "auser").length)) :=
  ⟨⟨by decide, by decide, by decide⟩,
    C6_amended "zuser" "auser" (by decide) (by decide) (by decide)⟩

/-- First equal-length declaration of the claim C7 tie scenario (first
    seen in the corpus, lexicographically last). -/
def zuserDecl : DataType :=
  { name := "zuser", type := "interface", fields := [],
    location := "src/models/z.ts", isBackend := true }

/-- Second equal-length declaration of the claim C7 tie scenario. -/
def auserDecl : DataType :=
  { name := "auser", type := "interface", fields := [],
    location := "src/models/a.ts", isBackend := true }

/-- The claim C7 tie corpus, `zuser` occurring first. -/
def lenTieCorpus : List DataType := [zuserDecl, auserDecl]

/-- Claim C7, counterexample: `zuser` and `auser` have equal length and
    cluster together, `zuser` occurs first in the corpus, yet the chosen
    primary name is `auser` — the tie is broken lexicographically (the
    alias list is sorted in place to build the cluster key), not by
    first-seen order. -/
theorem C7_counterexample :
    (groupEntitiesByMeaning lenTieCorpus []).map (fun e => e.primaryName) = ["auser"] ∧
    lenTieCorpus.map (fun t => t.name) = ["zuser", "auser"] ∧
    "zuser".length = "auser".length ∧
    ("auser" : String) ≠ "zuser" := by
  exact ⟨by decide, by decide, by decide, by decide⟩

/-- No `@` occurs in the string; function names produced by the
    identifier regexes always satisfy this. -/
def atFree (s : String) : Bool := !(s.data.contains '@')

/-- Splitting at a separator character absent from both prefixes is
    unambiguous. -/
theorem sep_append_inj_chars {ch : Char} :
    ∀ {a : List Char} {c b d : List Char}, ch ∉ a → ch ∉ c →
      a ++ ch :: b = c ++ ch :: d → a = c ∧ b = d := by
  intro a
  induction a with
  | nil =>
    intro c b d _ hc h
    cases c with
    | nil => simpa using h
    | cons y ys =>
      simp only [List.nil_append, List.cons_append, List.cons.injEq] at h
      exact absurd (h.1 ▸ List.mem_cons_self y ys) hc
  | cons x xs ih =>
    intro c b d ha hc h
    cases c with
    | nil =>
      simp only [List.nil_append, List.cons_append, List.cons.injEq] at h
      exact absurd (h.1 ▸ List.mem_cons_self x xs) ha
    | cons y ys =>
      simp only [List.cons_append, List.cons.injEq] at h
      obtain ⟨hxy, hrec⟩ := h
      subst hxy
      have hr := ih (fun hm => ha (List.mem_cons_of_mem _ hm))
        (fun hm => hc (List.mem_cons_of_mem _ hm)) hrec
      exact ⟨by rw [hr.1], hr.2⟩

/-- Character list of a `name@path` composite key. -/
theorem atKey_data (x y : String) :
    (x ++ "@" ++ y).data = x.data ++ '@' :: y.data := by
  simp [String.data_append]

/-- Character list of a `path:name` composite key. -/
theorem colonKey_data (x y : String) :
    (x ++ ":" ++ y).data = x.data ++ ':' :: y.data := by
  simp [String.data_append]

/-- `atFree` gives non-membership of `@`. -/
theorem atFree_mem {s : String} (h : atFree s = true) : '@' ∉ s.data := by
  simp only [atFree, Bool.not_eq_true'] at h
  intro hm
  simp [List.elem_iff] at h
  exact h hm

/-- Equal data lists give equal strings. -/
theorem string_data_inj {s t : String} (h : s.data = t.data) : s = t := by
  cases s; cases t; exact congrArg String.mk h

/-- Membership survives the edge deduplication of the graph builder. -/
theorem mem_foldl_dedup {α : Type} [BEq α] : ∀ (l acc : List α) (x : α),
    x ∈ l.foldl (fun acc e => if acc.contains e then acc else acc ++ [e]) acc →
    x ∈ acc ∨ x ∈ l := by
  intro l
  induction l with
  | nil => intro acc x h; exact Or.inl h
  | cons e rest ih =>
    intro acc x h
    simp only [List.foldl_cons] at h
    by_cases hc : acc.contains e = true
    · rw [if_pos hc] at h
      rcases ih _ _ h with h1 | h1
      · exact Or.inl h1
      · exact Or.inr (List.mem_cons_of_mem _ h1)
    · rw [if_neg hc] at h
      rcases ih _ _ h with h1 | h1
      · rcases List.mem_append.mp h1 with h2 | h2
        · exact Or.inl h2
        · simp only [List.mem_singleton] at h2
          subst h2
          exact Or.inr (List.mem_cons_self _ _)
      · exact Or.inr (List.mem_cons_of_mem _ h1)

/-- Only raw edges survive deduplication. -/
theorem mem_of_mem_dedupEdges {e : DependencyEdge} {l : List DependencyEdge}
    (h : e ∈ dedupEdges l) : e ∈ l := by
  rcases mem_foldl_dedup l [] e h with h1 | h1
  · exact absurd h1 (List.not_mem_nil e)
  · exact h1

/-- A resolved callee comes from the first file declaring a function with
    the callee's bare name. -/
theorem resolveCallee_spec {files : List FileAnalysis} {called tid : String}
    (h : resolveCallee files called = some tid) :
    ∃ f ∈ files, (∃ fn ∈ f.functions, fn.name = called) ∧
      tid = called ++ "@" ++ f.path := by
  unfold resolveCallee at h
  cases hf : files.find? (fun f => f.functions.any (fun fn => fn.name == called)) with
  | none => rw [hf] at h; simp at h
  | some f =>
    rw [hf] at h
    simp only [Option.some.injEq] at h
    have hmem := List.mem_of_find?_eq_some hf
    have hp := List.find?_some hf
    simp only [List.any_eq_true, beq_iff_eq] at hp
    obtain ⟨fn, hfn, hname⟩ := hp
    exact ⟨f, hmem, ⟨fn, hfn, hname⟩, h.symm⟩

/-- Claim C5, amended: provided no function lists its own bare name among
    its callee names (and names are `@`-free, as the extractor
    guarantees), no produced `CallEdge` has `from = to`.  The extractor
    does put a function's own name in its callee list, so the builder
    does emit self-edges on real extractor output. -/
theorem C5_amended (files : List FileAnalysis)
    (hAt : ∀ file ∈ files, ∀ fn ∈ file.functions, atFree fn.name = true)
    (hSelf : ∀ file ∈ files, ∀ fn ∈ file.functions, fn.name ∉ fn.calls) :
    ∀ e ∈ (buildDependencyGraph files).edges, e.«from» ≠ e.«to» := by
  intro e he heq
  have he' : e ∈ buildEdges files := mem_of_mem_dedupEdges he
  rw [buildEdges, List.mem_flatMap] at he'
  obtain ⟨file, hfile, he2⟩ := he'
  rw [List.mem_flatMap] at he2
  obtain ⟨fn, hfn, he3⟩ := he2
  rw [List.mem_filterMap] at he3
  obtain ⟨called, hcalled, hsome⟩ := he3
  cases hres : resolveCallee files called with
  | none => rw [hres] at hsome; simp at hsome
  | some tid =>
    rw [hres] at hsome
    simp only [Option.map_some', Option.some.injEq] at hsome
    obtain ⟨f2, hf2, ⟨fn2, hfn2, hfn2name⟩, htid⟩ := resolveCallee_spec hres
    subst hsome
    simp only at heq
    rw [htid] at heq
    have hdata := congrArg String.data heq
    rw [atKey_data, atKey_data] at hdata
    have hinj := sep_append_inj_chars
      (atFree_mem (hAt file hfile fn hfn))
      (by rw [← hfn2name]; exact atFree_mem (hAt f2 hf2 fn2 hfn2)) hdata
    have : fn.name = called := string_data_inj hinj.1
    exact hSelf file hfile fn hfn (this ▸ hcalled)

/-- A corpus without self-references for the claim C5 witness. -/
def noSelfFiles : List FileAnalysis :=
  [⟨"a.ts", [{ name := "f", calls := ["g"] }]⟩,
   ⟨"b.ts", [{ name := "g", calls := [] }]⟩]

/-- Witness for claim C5's amended theorem at a concrete corpus. -/
theorem C5_witness :
    (∀ file ∈ noSelfFiles, ∀ fn ∈ file.functions, atFree fn.name = true) ∧
    (∀ file ∈ noSelfFiles, ∀ fn ∈ file.functions, fn.name ∉ fn.calls) ∧
    ∀ e ∈ (buildDependencyGraph noSelfFiles).edges, e.«from» ≠ e.«to» :=
  ⟨by decide, by decide, C5_amended noSelfFiles (by decide) (by decide)⟩

/-- `jsLe` is reflexive. -/
theorem lexLe_refl : ∀ (l : List Char), lexLeChars l l = true := by
  intro l
  induction l with
  | nil => rfl
  | cons a as ih => simp [lexLeChars, ih]

/-- `jsLe` is total. -/
theorem lexLe_total : ∀ (a b : List Char),
    lexLeChars a b = true ∨ lexLeChars b a = true := by
  intro a
  induction a with
  | nil => intro b; exact Or.inl rfl
  | cons x xs ih =>
    intro b
    cases b with
    | nil => exact Or.inr rfl
    | cons y ys =>
      rcases Nat.lt_trichotomy x.toNat y.toNat with h | h | h
      · exact Or.inl (by simp [lexLeChars, h])
      · rcases ih ys with h2 | h2
        · exact Or.inl (by simp [lexLeChars, h, h2])
        · exact Or.inr (by simp [lexLeChars, h.symm, h2])
      · exact Or.inr (by simp [lexLeChars, h])

/-- Inversion of the lexicographic comparison on a cons. -/
theorem lexLe_cons_iff (x y : Char) (xs ys : List Char) :
    lexLeChars (x :: xs) (y :: ys) = true ↔
      x.toNat < y.toNat ∨ (x.toNat = y.toNat ∧ lexLeChars xs ys = true) := by
  simp only [lexLeChars]
  by_cases h1 : x.toNat < y.toNat
  · simp [h1]
  · by_cases h2 : y.toNat < x.toNat
    · simp [h1, h2]; omega
    · have h3 : x.toNat = y.toNat := by omega
      simp [h1, h2, h3]

/-- `jsLe` is transitive. -/
theorem lexLe_trans : ∀ (a b c : List Char), lexLeChars a b = true →
    lexLeChars b c = true → lexLeChars a c = true := by
  intro a
  induction a with
  | nil => intro b c _ _; rfl
  | cons x xs ih =>
    intro b c hab hbc
    cases b with
    | nil => simp [lexLeChars] at hab
    | cons y ys =>
      cases c with
      | nil => simp [lexLeChars] at hbc
      | cons z zs =>
        rw [lexLe_cons_iff] at hab hbc ⊢
        rcases hab with h | ⟨he1, hr1⟩
        · rcases hbc with h2 | ⟨he2, hr2⟩
          · exact Or.inl (by omega)
          · exact Or.inl (by omega)
        · rcases hbc with h2 | ⟨he2, hr2⟩
          · exact Or.inl (by omega)
          · exact Or.inr ⟨by omega, ih ys zs hr1 hr2⟩

/-- The cluster alias lists are sorted by the JS default order. -/
def LexSorted (l : List String) : Prop := l.Pairwise (fun x y => jsLe x y = true)

/-- Elements of a lexicographic insertion. -/
theorem mem_insertLex {a x : String} : ∀ {l : List String},
    x ∈ insertLex a l → x = a ∨ x ∈ l := by
  intro l
  induction l with
  | nil => intro h; simp [insertLex] at h; exact Or.inl h
  | cons b t ih =>
    intro h
    unfold insertLex at h
    by_cases hc : jsLe a b = true
    · rw [if_pos hc] at h
      rcases List.mem_cons.mp h with h1 | h1
      · exact Or.inl h1
      · exact Or.inr h1
    · rw [if_neg hc] at h
      rcases List.mem_cons.mp h with h1 | h1
      · exact Or.inr (h1 ▸ List.mem_cons_self b t)
      · rcases ih h1 with h2 | h2
        · exact Or.inl h2
        · exact Or.inr (List.mem_cons_of_mem _ h2)

/-- Insertion preserves sortedness. -/
theorem insertLex_sorted {a : String} : ∀ {l : List String},
    LexSorted l → LexSorted (insertLex a l) := by
  intro l
  induction l with
  | nil => intro _; exact List.pairwise_singleton _ _
  | cons b t ih =>
    intro h
    have hb := List.pairwise_cons.mp h
    unfold insertLex
    by_cases hc : jsLe a b = true
    · rw [if_pos hc]
      refine List.pairwise_cons.mpr ⟨?_, h⟩
      intro y hy
      rcases List.mem_cons.mp hy with h1 | h1
      · exact h1 ▸ hc
      · exact lexLe_trans _ _ _ hc (hb.1 y h1)
    · rw [if_neg hc]
      have hba : jsLe b a = true := by
        rcases lexLe_total a.data b.data with h1 | h1
        · exact absurd h1 hc
        · exact h1
      refine List.pairwise_cons.mpr ⟨?_, ih hb.2⟩
      intro y hy
      rcases mem_insertLex hy with h1 | h1
      · exact h1 ▸ hba
      · exact hb.1 y h1

/-- `sortLex` sorts. -/
theorem sortLex_sorted : ∀ (l : List String), LexSorted (sortLex l) := by
  intro l
  induction l with
  | nil => exact List.Pairwise.nil
  | cons a t ih => exact insertLex_sorted ih

/-- `insertLex` never returns the empty list. -/
theorem insertLex_ne_nil {a : String} : ∀ {l : List String}, insertLex a l ≠ [] := by
  intro l
  cases l with
  | nil => simp [insertLex]
  | cons b t =>
    unfold insertLex
    by_cases hc : jsLe a b = true
    · rw [if_pos hc]; simp
    · rw [if_neg hc]; simp

/-- `sortLex` of a nonempty list is nonempty. -/
theorem sortLex_ne_nil {l : List String} (h : l ≠ []) : sortLex l ≠ [] := by
  cases l with
  | nil => exact absurd rfl h
  | cons a t => exact insertLex_ne_nil

/-- One selection step: the earlier element `a` wins unless the later
    maximum is strictly longer. -/
def firstMaxStep (a : String) : Option String → String
  | none => a
  | some m => if m.length > a.length then m else a

/-- The earliest element of maximal length, which the stable
    descending-length sort moves to the front. -/
def firstMax : List String → Option String
  | [] => none
  | a :: l => some (firstMaxStep a (firstMax l))

/-- `firstMax` is `none` only on the empty list. -/
theorem firstMax_none : ∀ {l : List String}, firstMax l = none → l = [] := by
  intro l h
  cases l with
  | nil => rfl
  | cons a t => simp [firstMax] at h

/-- `firstMax` returns a member. -/
theorem firstMax_mem : ∀ {l : List String} {p : String},
    firstMax l = some p → p ∈ l := by
  intro l
  induction l with
  | nil => intro p h; simp [firstMax] at h
  | cons a t ih =>
    intro p h
    simp only [firstMax, Option.some.injEq] at h
    cases hf : firstMax t with
    | none =>
      rw [hf] at h
      simp only [firstMaxStep] at h
      exact h ▸ List.mem_cons_self a t
    | some m =>
      rw [hf] at h
      simp only [firstMaxStep] at h
      by_cases hc : m.length > a.length
      · rw [if_pos hc] at h
        exact List.mem_cons_of_mem _ (h ▸ ih hf)
      · rw [if_neg hc] at h
        exact h ▸ List.mem_cons_self a t

/-- `firstMax` has maximal length. -/
theorem firstMax_max : ∀ {l : List String} {p : String},
    firstMax l = some p → ∀ n ∈ l, n.length ≤ p.length := by
  intro l
  induction l with
  | nil => intro p h; simp [firstMax] at h
  | cons a t ih =>
    intro p h n hn
    simp only [firstMax, Option.some.injEq] at h
    cases hf : firstMax t with
    | none =>
      rw [hf] at h
      simp only [firstMaxStep] at h
      have ht := firstMax_none hf
      subst ht
      rcases List.mem_cons.mp hn with h1 | h1
      · rw [h1, ← h]
      · exact absurd h1 (List.not_mem_nil n)
    | some m =>
      rw [hf] at h
      simp only [firstMaxStep] at h
      by_cases hc : m.length > a.length
      · rw [if_pos hc] at h
        subst h
        rcases List.mem_cons.mp hn with h1 | h1
        · rw [h1]; omega
        · exact ih hf n h1
      · rw [if_neg hc] at h
        subst h
        rcases List.mem_cons.mp hn with h1 | h1
        · rw [h1]
        · have := ih hf n h1; omega

/-- On a sorted list, `firstMax` is the lexicographically-least element
    among those of maximal length. -/
theorem firstMax_lexLeast : ∀ {l : List String} {p : String},
    LexSorted l → firstMax l = some p →
    ∀ n ∈ l, n.length = p.length → jsLe p n = true := by
  intro l
  induction l with
  | nil => intro p _ h; simp [firstMax] at h
  | cons a t ih =>
    intro p hs h n hn hlen
    have hps := List.pairwise_cons.mp hs
    simp only [firstMax, Option.some.injEq] at h
    cases hf : firstMax t with
    | none =>
      rw [hf] at h
      simp only [firstMaxStep] at h
      have ht := firstMax_none hf
      subst ht
      rcases List.mem_cons.mp hn with h1 | h1
      · rw [h1, ← h]; exact lexLe_refl _
      · exact absurd h1 (List.not_mem_nil n)
    | some m =>
      rw [hf] at h
      simp only [firstMaxStep] at h
      by_cases hc : m.length > a.length
      · rw [if_pos hc] at h
        subst h
        rcases List.mem_cons.mp hn with h1 | h1
        · subst h1; omega
        · exact ih hps.2 hf n h1 hlen
      · rw [if_neg hc] at h
        subst h
        rcases List.mem_cons.mp hn with h1 | h1
        · rw [h1]; exact lexLe_refl _
        · exact hps.1 n h1

/-- Head of a descending-length insertion. -/
theorem insertByLen_head (a : String) (s : List String) :
    (insertByLen a s).head? = match s with
      | [] => some a
      | b :: _ => if b.length ≤ a.length then some a else some b := by
  cases s with
  | nil => rfl
  | cons b t =>
    unfold insertByLen
    by_cases hc : b.length ≤ a.length
    · rw [if_pos hc]; simp [hc]
    · rw [if_neg hc]; simp [hc]

/-- The head of the stable descending-length sort is the earliest
    maximal-length element. -/
theorem sortByLenDesc_head : ∀ (l : List String),
    (sortByLenDesc l).head? = firstMax l := by
  intro l
  induction l with
  | nil => rfl
  | cons a t ih =>
    show (insertByLen a (sortByLenDesc t)).head? = _
    rw [insertByLen_head]
    simp only [firstMax]
    cases hs : sortByLenDesc t with
    | nil =>
      have h0 : firstMax t = none := by rw [← ih, hs]; rfl
      rw [h0]
      simp [firstMaxStep]
    | cons b bs =>
      have h0 : firstMax t = some b := by rw [← ih, hs]; rfl
      rw [h0]
      simp only [firstMaxStep]
      by_cases h : b.length ≤ a.length
      · rw [if_pos h, if_neg (by omega)]
      · rw [if_neg h, if_pos (by omega)]

/-- Generic fold invariant with a per-element hypothesis. -/
theorem foldl_inv_mem {α β : Type} (step : β → α → β) (Q : β → Prop) (R : α → Prop) :
    ∀ (l : List α), (∀ a ∈ l, R a) → (∀ b a, R a → Q b → Q (step b a)) →
    ∀ b, Q b → Q (l.foldl step b) := by
  intro l
  induction l with
  | nil => intro _ _ b hb; exact hb
  | cons a rest ih =>
    intro hR hstep b hb
    exact ih (fun x hx => hR x (List.mem_cons_of_mem _ hx)) hstep _
      (hstep b a (hR a (List.mem_cons_self _ _)) hb)

/-- All values stored in the similarity map are nonempty sorted alias
    lists. -/
theorem buildSimilarityMap_spec (dataTypes : List DataType) :
    ∀ kv ∈ buildSimilarityMap dataTypes, kv.2 ≠ [] ∧ LexSorted kv.2 := by
  unfold buildSimilarityMap
  refine foldl_inv_mem (simMapStep dataTypes)
    (fun m => ∀ kv ∈ m, kv.2 ≠ [] ∧ LexSorted kv.2) (fun _ => True)
    dataTypes (fun _ _ => trivial) ?_ [] (by simp)
  intro m t _ hm kv hkv
  unfold simMapStep at hkv
  by_cases hlen : (findSimilarNames t.name dataTypes).length > 1
  · rw [if_pos hlen] at hkv
    by_cases hhas : jsMapHas m
        (String.intercalate "_" (sortLex (findSimilarNames t.name dataTypes))) = true
    · rw [if_pos hhas] at hkv
      exact hm kv hkv
    · rw [if_neg hhas] at hkv
      rcases List.mem_append.mp hkv with h1 | h1
      · exact hm kv h1
      · simp only [List.mem_singleton] at h1
        subst h1
        refine ⟨sortLex_ne_nil ?_, sortLex_sorted _⟩
        intro hnil
        rw [hnil] at hlen
        simp at hlen
  · rw [if_neg hlen] at hkv
    exact hm kv hkv

/-- `jsMapSet` preserves a property of all stored values. -/
theorem jsMapSet_forall {β : Type} (Q : String × β → Prop) {m : List (String × β)}
    {k : String} {v : β} (hm : ∀ e ∈ m, Q e) (hv : Q (k, v)) :
    ∀ e ∈ jsMapSet m k v, Q e := by
  intro e he
  unfold jsMapSet at he
  by_cases hc : m.any (fun p => p.1 == k) = true
  · rw [if_pos hc] at he
    rw [List.mem_map] at he
    obtain ⟨p, hp, hpe⟩ := he
    by_cases hk : (p.1 == k) = true
    · rw [if_pos hk] at hpe
      exact hpe ▸ hv
    · rw [if_neg hk] at hpe
      exact hpe ▸ hm p hp
  · rw [if_neg hc] at he
    rcases List.mem_append.mp he with h | h
    · exact hm e h
    · simp only [List.mem_singleton] at h
      exact h ▸ hv

/-- The primary name chosen for a nonempty, lexicographically sorted
    alias list is an alias of maximal length and the lexicographically
    least among the maximal-length aliases. -/
theorem mkEntity_spec (dataTypes : List DataType) {names : List String}
    (hne : names ≠ []) (hsorted : LexSorted names) :
    (mkEntity names dataTypes).primaryName ∈ (mkEntity names dataTypes).aliases ∧
      (∀ n ∈ (mkEntity names dataTypes).aliases,
        n.length ≤ (mkEntity names dataTypes).primaryName.length) ∧
      (∀ n ∈ (mkEntity names dataTypes).aliases,
        n.length = (mkEntity names dataTypes).primaryName.length →
          jsLe (mkEntity names dataTypes).primaryName n = true) := by
  have hshape : (mkEntity names dataTypes).primaryName = choosePrimary names ∧
      (mkEntity names dataTypes).aliases = names := ⟨rfl, rfl⟩
  rw [hshape.1, hshape.2]
  cases hfm : firstMax names with
  | none => exact absurd (firstMax_none hfm) hne
  | some p =>
    have hchoose : choosePrimary names = p := by
      unfold choosePrimary
      have hh := sortByLenDesc_head names
      rw [hfm] at hh
      cases hs : sortByLenDesc names with
      | nil => rw [hs] at hh; simp at hh
      | cons b bs =>
        rw [hs] at hh
        simp only [List.head?_cons, Option.some.injEq] at hh
        simp [hh]
    rw [hchoose]
    exact ⟨firstMax_mem hfm, firstMax_max hfm,
      fun n hn hl => firstMax_lexLeast hsorted hfm n hn hl⟩

/-- Claim C7: for every entity produced by the reconciler, the chosen
    `primaryName` is an alias of maximal character length; when several
    aliases share that maximal length the lexicographically-least one is
    chosen (the alias list was sorted to build the cluster key and the
    length sort is stable), not the first-seen one. -/
theorem C7_amended (dataTypes : List DataType) (allFiles : List FileAnalysis)
    (e : EntityMapping) (he : e ∈ groupEntitiesByMeaning dataTypes allFiles) :
    e.primaryName ∈ e.aliases ∧
      (∀ n ∈ e.aliases, n.length ≤ e.primaryName.length) ∧
      (∀ n ∈ e.aliases, n.length = e.primaryName.length →
        jsLe e.primaryName n = true) := by
  unfold groupEntitiesByMeaning at he
  rw [List.mem_map] at he
  obtain ⟨pe, hpe, hpee⟩ := he
  have hinv := foldl_inv_mem (groupStep dataTypes)
    (fun st => ∀ q ∈ st.2,
      q.2.primaryName ∈ q.2.aliases ∧
        (∀ n ∈ q.2.aliases, n.length ≤ q.2.primaryName.length) ∧
        (∀ n ∈ q.2.aliases, n.length = q.2.primaryName.length →
          jsLe q.2.primaryName n = true))
    (fun kv => kv.2 ≠ [] ∧ LexSorted kv.2)
    (buildSimilarityMap dataTypes) (buildSimilarityMap_spec dataTypes)
    ?_ ([], []) (by simp)
  · exact hpee ▸ hinv pe hpe
  · intro st entry hR hQ
    unfold groupStep
    by_cases hc : st.1.contains entry.1 = true
    · rw [if_pos hc]; exact hQ
    · rw [if_neg hc]
      intro q hq
      exact jsMapSet_forall _ hQ (mkEntity_spec dataTypes hR.1 hR.2) q hq

/-- The entity the tie corpus produces. -/
def lenTieEntity : EntityMapping :=
  { primaryName := "auser", aliases := ["auser", "zuser"],
    definitions := [zuserDecl, auserDecl], fieldMappings := [], warnings := [] }

/-- Witness for claim C7's theorem at the tie corpus. -/
theorem C7_witness :
    lenTieEntity ∈ groupEntitiesByMeaning lenTieCorpus [] ∧
    (lenTieEntity.primaryName ∈ lenTieEntity.aliases ∧
      (∀ n ∈ lenTieEntity.aliases, n.length ≤ lenTieEntity.primaryName.length) ∧
      (∀ n ∈ lenTieEntity.aliases,
        n.length = lenTieEntity.primaryName.length →
          jsLe lenTieEntity.primaryName n = true)) :=
  ⟨by decide, C7_amended lenTieCorpus [] lenTieEntity (by decide)⟩

/-- Claim C8: a mismatch line is only ever produced for an entity having
    a database-tagged and an API-tagged definition, and only for a field
    present (under normalized name) on both of those definitions whose
    type texts fail the compatibility check; consequently an entity with
    only API tags yields no mismatch, and a database field with no
    normalized-name counterpart on the API side is never flagged. -/
theorem C8_theorem (entities : List EntityMapping) (m : String)
    (hm : m ∈ findTypeMismatches entities) :
    ∃ e ∈ entities, ∃ d ∈ e.definitions, ∃ a ∈ e.definitions,
      d.isDatabase = true ∧ a.isAPI = true ∧
      ∃ pf ∈ d.fields, ∃ qf ∈ a.fields,
        normalizeName qf.1 = normalizeName pf.1 ∧
        areTypesCompatible pf.2 qf.2 = false ∧
        m = mismatchLine e.primaryName pf.1 pf.2 qf.1 qf.2 := by
  rw [findTypeMismatches, List.mem_flatMap] at hm
  obtain ⟨e, he, hme⟩ := hm
  refine ⟨e, he, ?_⟩
  unfold entityMismatches at hme
  split at hme
  case h_2 => simp at hme
  case h_1 dbDef apiDef hdb hapi =>
    rw [List.mem_filterMap] at hme
    obtain ⟨pf, hpf, hsome⟩ := hme
    split at hsome
    case h_2 => simp at hsome
    case h_1 qf hfind =>
      split at hsome
      · simp at hsome
      · simp only [Option.some.injEq] at hsome
        refine ⟨dbDef, List.mem_of_find?_eq_some hdb, apiDef,
          List.mem_of_find?_eq_some hapi,
          List.find?_some hdb, List.find?_some hapi,
          pf, hpf, qf, List.mem_of_find?_eq_some hfind, ?_, ?_, hsome.symm⟩
        · have h1 := List.find?_some hfind
          simpa using h1
        · simp_all

/-- The database-tagged `Money` declaration of Scenario B. -/
def dbMoneyDecl : DataType :=
  { name := "Money", type := "schema", fields := [("amount", "Int")],
    location := "schema.prisma", isDatabase := true }

/-- The API-tagged `Money` declaration of Scenario B. -/
def apiMoneyDecl : DataType :=
  { name := "Money", type := "interface", fields := [("amount", "number")],
    location := "src/api/dto.ts", isAPI := true, isBackend := true }

/-- The Scenario B entity with one DB- and one API-tagged definition. -/
def moneyEntity : EntityMapping :=
  { primaryName := "Money", aliases := ["Money"],
    definitions := [dbMoneyDecl, apiMoneyDecl], fieldMappings := [], warnings := [] }

/-- Witness for claim C8's theorem at the Scenario B entity: the
    `Int` / `number` pair fails the compatibility table and the mismatch
    line is produced. -/
theorem C8_witness :
    mismatchLine "Money" "amount" "Int" "amount" "number" ∈
      findTypeMismatches [moneyEntity] ∧
    ∃ e ∈ [moneyEntity], ∃ d ∈ e.definitions, ∃ a ∈ e.definitions,
      d.isDatabase = true ∧ a.isAPI = true ∧
      ∃ pf ∈ d.fields, ∃ qf ∈ a.fields,
        normalizeName qf.1 = normalizeName pf.1 ∧
        areTypesCompatible pf.2 qf.2 = false ∧
        mismatchLine "Money" "amount" "Int" "amount" "number" =
          mismatchLine e.primaryName pf.1 pf.2 qf.1 qf.2 :=
  ⟨by decide, C8_theorem [moneyEntity] _ (by decide)⟩

/-- A map that is pointwise the identity is the identity. -/
theorem mapIdOf {α : Type} {f : α → α} : ∀ {l : List α},
    (∀ x ∈ l, f x = x) → l.map f = l := by
  intro l
  induction l with
  | nil => intro _; rfl
  | cons a t ih =>
    intro h
    simp only [List.map_cons]
    rw [h a (List.mem_cons_self a t), ih (fun x hx => h x (List.mem_cons_of_mem _ hx))]

/-- A flat map that is pointwise a singleton is the identity. -/
theorem flatMapSingletonOf {α : Type} {f : α → List α} : ∀ {l : List α},
    (∀ x ∈ l, f x = [x]) → l.flatMap f = l := by
  intro l
  induction l with
  | nil => intro _; rfl
  | cons a t ih =>
    intro h
    simp only [List.flatMap_cons]
    rw [h a (List.mem_cons_self a t), ih (fun x hx => h x (List.mem_cons_of_mem _ hx))]
    rfl

/-- The collapse of a cons starts with the same character. -/
theorem collapse_cons : ∀ (xs : List Char) (x : Char),
    ∃ ys, collapseUnderscores (x :: xs) = x :: ys := by
  intro xs
  induction xs with
  | nil => intro x; exact ⟨[], rfl⟩
  | cons b rest ih =>
    intro x
    simp only [collapseUnderscores]
    by_cases hc : (x = '_' && b = '_') = true
    · rw [if_pos hc]
      obtain ⟨ys, hys⟩ := ih b
      have hx : x = b := by
        simp only [Bool.and_eq_true, decide_eq_true_eq] at hc
        rw [hc.1, hc.2]
      exact ⟨ys, by rw [hys, hx]⟩
    · rw [if_neg hc]
      exact ⟨collapseUnderscores (b :: rest), rfl⟩

/-- Collapsing only keeps characters of the input. -/
theorem mem_collapse : ∀ {l : List Char} {c : Char},
    c ∈ collapseUnderscores l → c ∈ l := by
  intro l
  induction l with
  | nil => intro c h; simp [collapseUnderscores] at h
  | cons a t ih =>
    intro c h
    cases t with
    | nil => simpa [collapseUnderscores] using h
    | cons b rest =>
      simp only [collapseUnderscores] at h
      by_cases hc : (a = '_' && b = '_') = true
      · rw [if_pos hc] at h
        exact List.mem_cons_of_mem _ (ih h)
      · rw [if_neg hc] at h
        rcases List.mem_cons.mp h with h1 | h1
        · exact h1 ▸ List.mem_cons_self a _
        · exact List.mem_cons_of_mem _ (ih h1)

/-- No two adjacent underscores. -/
def noDouble : List Char → Bool
  | [] => true
  | [_] => true
  | a :: b :: rest => !(a = '_' && b = '_') && noDouble (b :: rest)

/-- The collapse has no adjacent underscores. -/
theorem noDouble_collapse : ∀ (l : List Char),
    noDouble (collapseUnderscores l) = true := by
  intro l
  induction l with
  | nil => rfl
  | cons a t ih =>
    cases t with
    | nil => rfl
    | cons b rest =>
      simp only [collapseUnderscores]
      by_cases hc : (a = '_' && b = '_') = true
      · rw [if_pos hc]; exact ih
      · rw [if_neg hc]
        obtain ⟨ys, hys⟩ := collapse_cons rest b
        rw [hys]
        show noDouble (a :: b :: ys) = true
        have hnd : noDouble (b :: ys) = true := by rw [← hys]; exact ih
        have hc2 : (a = '_' && b = '_') = false := by
          cases h0 : (a = '_' && b = '_') with
          | false => rfl
          | true => exact absurd h0 hc
        simp only [noDouble, Bool.and_eq_true]
        exact ⟨by rw [hc2]; rfl, hnd⟩

/-- Collapsing is the identity without adjacent underscores. -/
theorem collapse_eq_self : ∀ {l : List Char},
    noDouble l = true → collapseUnderscores l = l := by
  intro l
  induction l with
  | nil => intro _; rfl
  | cons a t ih =>
    intro h
    cases t with
    | nil => rfl
    | cons b rest =>
      simp only [noDouble, Bool.and_eq_true] at h
      have hc2 : (a = '_' && b = '_') = false := by
        cases h0 : (a = '_' && b = '_') with
        | false => rfl
        | true => rw [h0] at h; simp at h
      simp only [collapseUnderscores]
      rw [if_neg (by simp [hc2]), ih h.2]

/-- Adjacent-underscore freedom passes to the tail. -/
theorem noDouble_tail {x : Char} : ∀ {xs : List Char},
    noDouble (x :: xs) = true → noDouble xs = true := by
  intro xs h
  cases xs with
  | nil => rfl
  | cons b rest =>
    simp only [noDouble, Bool.and_eq_true] at h
    exact h.2

/-- Adjacent-underscore freedom survives the leading trim. -/
theorem noDouble_dropLead {l : List Char} (h : noDouble l = true) :
    noDouble (dropLeadUnderscore l) = true := by
  cases l with
  | nil => rfl
  | cons c rest =>
    simp only [dropLeadUnderscore]
    by_cases hc : c = '_'
    · rw [if_pos hc]; exact noDouble_tail h
    · rw [if_neg hc]; exact h

/-- The trailing trim keeps the head character or empties the list. -/
theorem dropTail_head : ∀ (b : Char) (rest : List Char),
    dropTailUnderscore (b :: rest) = [] ∨
      ∃ ys, dropTailUnderscore (b :: rest) = b :: ys := by
  intro b rest
  cases rest with
  | nil =>
    by_cases h : b = '_'
    · left; simp [dropTailUnderscore, h]
    · right; exact ⟨[], by simp [dropTailUnderscore, h]⟩
  | cons c r => right; exact ⟨dropTailUnderscore (c :: r), rfl⟩

/-- Adjacent-underscore freedom survives the trailing trim. -/
theorem noDouble_dropTail : ∀ {l : List Char},
    noDouble l = true → noDouble (dropTailUnderscore l) = true := by
  intro l
  induction l with
  | nil => intro _; rfl
  | cons a t ih =>
    intro h
    cases t with
    | nil =>
      simp only [dropTailUnderscore]
      by_cases hc : a = '_'
      · rw [if_pos hc]; rfl
      · rw [if_neg hc]; rfl
    | cons b rest =>
      have h2 := noDouble_tail h
      simp only [dropTailUnderscore]
      rcases dropTail_head b rest with h3 | ⟨ys, h3⟩
      · rw [h3]; rfl
      · rw [h3]
        show noDouble (a :: b :: ys) = true
        have hnd : noDouble (b :: ys) = true := by rw [← h3]; exact ih h2
        simp only [noDouble, Bool.and_eq_true] at h ⊢
        exact ⟨h.1, hnd⟩

/-- Characters of the leading trim come from the input. -/
theorem mem_dropLead : ∀ {l : List Char} {c : Char},
    c ∈ dropLeadUnderscore l → c ∈ l := by
  intro l c h
  cases l with
  | nil => simp [dropLeadUnderscore] at h
  | cons a rest =>
    simp only [dropLeadUnderscore] at h
    by_cases hc : a = '_'
    · rw [if_pos hc] at h; exact List.mem_cons_of_mem _ h
    · rw [if_neg hc] at h; exact h

/-- Characters of the trailing trim come from the input. -/
theorem mem_dropTail : ∀ {l : List Char} {c : Char},
    c ∈ dropTailUnderscore l → c ∈ l := by
  intro l
  induction l with
  | nil => intro c h; simp [dropTailUnderscore] at h
  | cons a t ih =>
    intro c h
    cases t with
    | nil =>
      simp only [dropTailUnderscore] at h
      by_cases hc : a = '_'
      · rw [if_pos hc] at h; exact absurd h (List.not_mem_nil c)
      · rw [if_neg hc] at h; exact h
    | cons b rest =>
      simp only [dropTailUnderscore] at h
      rcases List.mem_cons.mp h with h1 | h1
      · exact h1 ▸ List.mem_cons_self a _
      · exact List.mem_cons_of_mem _ (ih h1)

/-- After the leading trim of an adjacent-underscore-free list, the head
    is not an underscore. -/
theorem dropLead_head {l : List Char} (h : noDouble l = true) :
    (dropLeadUnderscore l).head? ≠ some '_' := by
  cases l with
  | nil => simp [dropLeadUnderscore]
  | cons c rest =>
    simp only [dropLeadUnderscore]
    by_cases hc : c = '_'
    · rw [if_pos hc]
      cases rest with
      | nil => simp
      | cons y r =>
        simp only [noDouble, Bool.and_eq_true] at h
        have hy : y ≠ '_' := by
          subst hc
          simpa using h.1
        simpa using hy
    · rw [if_neg hc]
      simpa using hc

/-- The trailing trim keeps the head or empties the list. -/
theorem dropTail_head? : ∀ (l : List Char),
    (dropTailUnderscore l).head? = l.head? ∨ dropTailUnderscore l = [] := by
  intro l
  cases l with
  | nil => right; rfl
  | cons b rest =>
    rcases dropTail_head b rest with h | ⟨ys, h⟩
    · right; exact h
    · left; rw [h]; rfl

/-- After the trailing trim of an adjacent-underscore-free list, the last
    character is not an underscore. -/
theorem dropTail_getLast : ∀ {l : List Char}, noDouble l = true →
    (dropTailUnderscore l).getLast? ≠ some '_' := by
  intro l
  induction l with
  | nil => intro _; simp [dropTailUnderscore]
  | cons a t ih =>
    intro h
    cases t with
    | nil =>
      simp only [dropTailUnderscore]
      by_cases hc : a = '_'
      · rw [if_pos hc]; simp
      · rw [if_neg hc]; simpa using hc
    | cons b rest =>
      have h2 := noDouble_tail h
      simp only [dropTailUnderscore]
      rcases dropTail_head b rest with h3 | ⟨ys, h3⟩
      · rw [h3]
        simp only [List.getLast?_singleton, ne_eq, Option.some.injEq]
        -- dropTail (b :: rest) = [] forces rest = [] and b = '_', so a ≠ '_'
        cases rest with
        | nil =>
          by_cases hb : b = '_'
          · simp only [noDouble, Bool.and_eq_true] at h
            subst hb
            intro ha
            rw [ha] at h
            simp at h
          · simp [dropTailUnderscore, hb] at h3
        | cons c r =>
          rcases dropTail_head c r with h4 | ⟨zs, h4⟩ <;> simp [dropTailUnderscore] at h3
      · rw [h3]
        rw [List.getLast?_cons_cons]
        rw [← h3]
        exact ih h2

/-- The leading trim is the identity when the head is not an
    underscore. -/
theorem dropLead_eq_self {l : List Char} (h : l.head? ≠ some '_') :
    dropLeadUnderscore l = l := by
  cases l with
  | nil => rfl
  | cons c rest =>
    simp only [List.head?_cons, ne_eq, Option.some.injEq] at h
    simp [dropLeadUnderscore, h]

/-- The trailing trim is the identity when the last character is not an
    underscore. -/
theorem dropTail_eq_self : ∀ {l : List Char}, l.getLast? ≠ some '_' →
    dropTailUnderscore l = l := by
  intro l
  induction l with
  | nil => intro _; rfl
  | cons a t ih =>
    intro h
    cases t with
    | nil =>
      simp only [List.getLast?_singleton, ne_eq, Option.some.injEq] at h
      simp [dropTailUnderscore, h]
    | cons b rest =>
      rw [List.getLast?_cons_cons] at h
      simp only [dropTailUnderscore]
      rw [ih h]

/-- Every character surviving normalization is in `[a-z0-9_]`. -/
theorem normalizeChars_mem_word {l : List Char} {c : Char}
    (h : c ∈ normalizeChars l) : isLowerWordChar c = true := by
  unfold normalizeChars at h
  exact List.of_mem_filter (mem_collapse (mem_dropLead (mem_dropTail h)))

/-- Lower-casing fixes the normalized character class. -/
theorem jsLower_word {c : Char} (h : isLowerWordChar c = true) : jsLower c = c := by
  unfold jsLower isAsciiUpper
  rw [if_neg]
  simp only [isLowerWordChar, Bool.or_eq_true, Bool.and_eq_true, decide_eq_true_eq] at h
  intro hcontra
  simp only [Bool.and_eq_true, decide_eq_true_eq] at hcontra
  rcases h with (h | h) | h
  · omega
  · omega
  · subst h
    exact absurd hcontra (by decide)

/-- The uppercase split fixes the normalized character class. -/
theorem splitUpper_word {c : Char} (h : isLowerWordChar c = true) :
    splitUpper c = [c] := by
  unfold splitUpper isAsciiUpper
  rw [if_neg]
  simp only [isLowerWordChar, Bool.or_eq_true, Bool.and_eq_true, decide_eq_true_eq] at h
  intro hcontra
  simp only [Bool.and_eq_true, decide_eq_true_eq] at hcontra
  rcases h with (h | h) | h
  · omega
  · omega
  · subst h
    exact absurd hcontra (by decide)

/-- Claim C9: the name normalizer is idempotent —
    `normalizeName (normalizeName x) = normalizeName x` for every
    string. -/
theorem C9_theorem (s : String) :
    normalizeName (normalizeName s) = normalizeName s := by
  unfold normalizeName
  apply congrArg String.mk
  show normalizeChars (normalizeChars s.data) = normalizeChars s.data
  have hword : ∀ c ∈ normalizeChars s.data, isLowerWordChar c = true :=
    fun c hc => normalizeChars_mem_word hc
  have hnw : noDouble (collapseUnderscores
      (((s.data.map jsLower).flatMap splitUpper).filter isLowerWordChar)) = true :=
    noDouble_collapse _
  have hndl := noDouble_dropLead hnw
  have hndy : noDouble (normalizeChars s.data) = true := by
    unfold normalizeChars
    exact noDouble_dropTail hndl
  have hhead : (normalizeChars s.data).head? ≠ some '_' := by
    unfold normalizeChars
    rcases dropTail_head? (dropLeadUnderscore (collapseUnderscores
        (((s.data.map jsLower).flatMap splitUpper).filter isLowerWordChar))) with h | h
    · rw [h]; exact dropLead_head hnw
    · rw [h]; simp
  have hlast : (normalizeChars s.data).getLast? ≠ some '_' := by
    unfold normalizeChars
    exact dropTail_getLast hndl
  conv_lhs => rw [normalizeChars]
  rw [mapIdOf (fun c hc => jsLower_word (hword c hc))]
  rw [flatMapSingletonOf (fun c hc => splitUpper_word (hword c hc))]
  rw [List.filter_eq_self.mpr hword]
  rw [collapse_eq_self hndy]
  rw [dropLead_eq_self hhead]
  rw [dropTail_eq_self hlast]

/-- No `:` occurs in the string; extracted function names satisfy this,
    and source paths are assumed to. -/
def colonFree (s : String) : Bool := !(s.data.contains ':')

/-- `colonFree` gives non-membership of `:`. -/
theorem colonFree_mem {s : String} (h : colonFree s = true) : ':' ∉ s.data := by
  simp only [colonFree, Bool.not_eq_true'] at h
  intro hm
  simp [List.elem_iff] at h
  exact h hm

/-- A `path:name` key contains a colon. -/
theorem colon_mem_key (p n : String) : ':' ∈ (p ++ ":" ++ n).data := by
  rw [colonKey_data]
  simp

/-- `path:name` keys with colon-free paths split uniquely. -/
theorem colonKey_inj {p q n m0 : String} (hp : colonFree p = true)
    (hq : colonFree q = true) (h : p ++ ":" ++ n = q ++ ":" ++ m0) :
    p = q ∧ n = m0 := by
  have hd := congrArg String.data h
  rw [colonKey_data, colonKey_data] at hd
  have := sep_append_inj_chars (colonFree_mem hp) (colonFree_mem hq) hd
  exact ⟨string_data_inj this.1, string_data_inj this.2⟩

/-- A colon-free string is never a `path:name` key. -/
theorem bare_ne_colonKey {b p n : String} (h : colonFree b = true) :
    b ≠ p ++ ":" ++ n := by
  intro he
  exact colonFree_mem h (he ▸ colon_mem_key p n)

/-- Presence of a key in an association list, `any` form. -/
theorem any_key_iff {β : Type} (m : List (String × β)) (k : String) :
    m.any (fun p => p.1 == k) = true ↔ ∃ e ∈ m, e.1 = k := by
  rw [List.any_eq_true]
  constructor
  · rintro ⟨e, he, hk⟩; exact ⟨e, he, by simpa using hk⟩
  · rintro ⟨e, he, hk⟩; exact ⟨e, he, by simpa using hk⟩

/-- `jsMapSet` on a fresh key appends. -/
theorem jsMapSet_fresh {β : Type} {m : List (String × β)} {k : String} {v : β}
    (h : m.any (fun p => p.1 == k) = false) :
    jsMapSet m k v = m ++ [(k, v)] := by
  unfold jsMapSet
  rw [if_neg (by simp [h])]

/-- `jsMapSet` is the identity when the stored entry already is the
    written one. -/
theorem jsMapSet_stable {β : Type} {m : List (String × β)} {k : String} {v : β}
    (hmem : (k, v) ∈ m) (huniq : ∀ e ∈ m, e.1 = k → e = (k, v)) :
    jsMapSet m k v = m := by
  unfold jsMapSet
  rw [if_pos ((any_key_iff m k).mpr ⟨(k, v), hmem, rfl⟩)]
  apply mapIdOf
  intro e he
  by_cases hk : (e.1 == k) = true
  · rw [if_pos hk]
    exact (huniq e he (by simpa using hk)).symm
  · rw [if_neg hk]

/-- Overwriting entries that fail a predicate, with a failing new value,
    does not change the filtered list. -/
theorem filter_overwrite {β : Type} (pr : String × β → Bool) (k : String) (v : β) :
    ∀ (m : List (String × β)), (∀ e ∈ m, e.1 = k → pr e = false) →
      pr (k, v) = false →
      (m.map (fun p => if p.1 == k then (k, v) else p)).filter pr = m.filter pr := by
  intro m
  induction m with
  | nil => intro _ _; rfl
  | cons e rest ih =>
    intro hold hnew
    have htail := ih (fun e2 he2 hk2 => hold e2 (List.mem_cons_of_mem _ he2) hk2) hnew
    simp only [List.map_cons]
    by_cases hk : (e.1 == k) = true
    · rw [if_pos hk]
      have he : pr e = false := hold e (List.mem_cons_self _ _) (by simpa using hk)
      rw [List.filter_cons, List.filter_cons, hnew, he]
      simpa using htail
    · rw [if_neg hk]
      rw [List.filter_cons, List.filter_cons]
      cases hpre : pr e with
      | true => simpa [htail] using congrArg (e :: ·) htail
      | false => simpa using htail

/-- Writing a value that fails a predicate at a key whose entries all
    fail it leaves the filtered list unchanged. -/
theorem jsMapSet_filter_notpred {β : Type} (pr : String × β → Bool)
    {m : List (String × β)} {k : String} {v : β}
    (hold : ∀ e ∈ m, e.1 = k → pr e = false) (hnew : pr (k, v) = false) :
    (jsMapSet m k v).filter pr = m.filter pr := by
  unfold jsMapSet
  by_cases hc : m.any (fun p => p.1 == k) = true
  · rw [if_pos hc]
    exact filter_overwrite pr k v m hold hnew
  · rw [if_neg (by simp [hc])]
    rw [List.filter_append]
    simp [hnew]

/-- `jsMapSet` preserves distinctness of keys. -/
theorem jsMapSet_keys {β : Type} {m : List (String × β)} {k : String} {v : β}
    (h : (m.map Prod.fst).Nodup) : ((jsMapSet m k v).map Prod.fst).Nodup := by
  unfold jsMapSet
  by_cases hc : m.any (fun p => p.1 == k) = true
  · rw [if_pos hc]
    have hmap : (m.map (fun p => if p.1 == k then (k, v) else p)).map Prod.fst =
        m.map Prod.fst := by
      rw [List.map_map]
      apply List.map_congr_left
      intro e _
      by_cases hk : (e.1 == k) = true
      · simp only [Function.comp_apply]
        rw [if_pos hk]
        simpa using (beq_iff_eq.mp hk).symm
      · simp only [Function.comp_apply]
        rw [if_neg hk]
    rw [hmap]
    exact h
  · rw [if_neg (by simp [hc])]
    rw [List.map_append]
    rw [List.nodup_append]
    refine ⟨h, by simp, ?_⟩
    intro a ha hb
    simp only [List.map_cons, List.map_nil, List.mem_singleton] at hb
    subst hb
    rw [List.mem_map] at ha
    obtain ⟨e, he, hek⟩ := ha
    exact hc ((any_key_iff m a).mpr ⟨e, he, hek⟩)

/-- In a list with distinct keys, an entry is determined by its key. -/
theorem nodup_keys_unique {β : Type} : ∀ {m : List (String × β)},
    (m.map Prod.fst).Nodup → ∀ {k : String} {v w : β},
      (k, v) ∈ m → (k, w) ∈ m → v = w := by
  intro m
  induction m with
  | nil => intro _ k v w hv _; simp at hv
  | cons e rest ih =>
    intro hnd k v w hv hw
    simp only [List.map_cons, List.nodup_cons] at hnd
    rcases List.mem_cons.mp hv with h1 | h1 <;> rcases List.mem_cons.mp hw with h2 | h2
    · rw [← h1] at h2
      exact (Prod.mk.injEq _ _ _ _ ▸ h2.symm).2
    · exfalso
      apply hnd.1
      rw [List.mem_map]
      exact ⟨(k, w), h2, by rw [← h1]⟩
    · exfalso
      apply hnd.1
      rw [List.mem_map]
      exact ⟨(k, v), h1, by rw [← h2]⟩
    · exact ih hnd.2 h1 h2

/-- Shape of an entry of the function map: the value's name is colon
    free, and the key is the bare name or a `path:name` key with a
    colon-free path. -/
def entryWf (e : String × Func) : Prop :=
  colonFree e.2.name = true ∧
    (e.1 = e.2.name ∨ ∃ p, colonFree p = true ∧ e.1 = p ++ ":" ++ e.2.name)

/-- A well-formed entry stored at the path-qualified key of `g` holds a
    function named like `g`. -/
theorem entry_at_colonKey {g : Func} {qpath : String} (hqcf : colonFree qpath = true)
    {e : String × Func} (hwf : entryWf e)
    (hk : e.1 = qpath ++ ":" ++ g.name) : e.2.name = g.name := by
  rcases hwf.2 with h | ⟨p, hpcf, hp⟩
  · exact absurd (hk ▸ h).symm (bare_ne_colonKey hwf.1)
  · rw [hp] at hk
    exact (colonKey_inj hpcf hqcf hk).2

/-- A well-formed entry stored at the bare key of `g` holds a function
    named like `g`. -/
theorem entry_at_bareKey {g : Func} (hgcf : colonFree g.name = true)
    {e : String × Func} (hwf : entryWf e) (hk : e.1 = g.name) :
    e.2.name = g.name := by
  rcases hwf.2 with h | ⟨p, hpcf, hp⟩
  · rw [← hk, h]
  · exact absurd (hk ▸ hp) (bare_ne_colonKey hgcf)

/-- One function registration of `analyzeCallDependencies`: the
    path-qualified key, then the bare-name key. -/
def insFn (m : List (String × Func)) (pf : String × Func) : List (String × Func) :=
  jsMapSet (jsMapSet m (pf.1 ++ ":" ++ pf.2.name) pf.2) pf.2.name pf.2

/-- The (path, function) pairs the nested registration loop visits. -/
def filePairs (files : List FileAnalysis) : List (String × Func) :=
  files.flatMap (fun file => file.functions.map (fun fn => (file.path, fn)))

/-- Invariant of the function-map construction relative to the uniquely
    named function `g` declared in the file at `qpath`: keys are
    distinct, entries are well-formed, and the entries whose function is
    named like `g` are exactly the two registrations of `g` (path key
    first), present exactly after `g` has been processed. -/
def fnMapInv (g : Func) (qpath : String) (m : List (String × Func)) (b : Bool) : Prop :=
  (m.map Prod.fst).Nodup ∧ (∀ e ∈ m, entryWf e) ∧
    m.filter (fun p => p.2.name == g.name) =
      (bif b then [(qpath ++ ":" ++ g.name, g), (g.name, g)] else [])

/-- One registration step preserves the invariant. -/
theorem insFn_inv (g : Func) (qpath : String)
    (hgcf : colonFree g.name = true) (hqcf : colonFree qpath = true)
    (pf : String × Func)
    (hp1 : colonFree pf.1 = true) (hp2 : colonFree pf.2.name = true)
    (hpu : pf.2.name = g.name → pf.2 = g ∧ pf.1 = qpath)
    (m : List (String × Func)) (b : Bool) (hinv : fnMapInv g qpath m b) :
    fnMapInv g qpath (insFn m pf) (b || (pf.2.name == g.name)) := by
  obtain ⟨hnd, hwf, hfil⟩ := hinv
  have hwf1 : ∀ e ∈ jsMapSet m (pf.1 ++ ":" ++ pf.2.name) pf.2, entryWf e :=
    jsMapSet_forall entryWf hwf ⟨hp2, Or.inr ⟨pf.1, hp1, rfl⟩⟩
  have hwf2 : ∀ e ∈ insFn m pf, entryWf e :=
    jsMapSet_forall entryWf hwf1 ⟨hp2, Or.inl rfl⟩
  have hnd2 : ((insFn m pf).map Prod.fst).Nodup :=
    jsMapSet_keys (jsMapSet_keys hnd)
  refine ⟨hnd2, hwf2, ?_⟩
  by_cases hname : pf.2.name = g.name
  case neg =>
    have hbeq : (pf.2.name == g.name) = false := by simp [hname]
    rw [hbeq, Bool.or_false]
    have hstep1 : (jsMapSet m (pf.1 ++ ":" ++ pf.2.name) pf.2).filter
        (fun p => p.2.name == g.name) = m.filter (fun p => p.2.name == g.name) := by
      apply jsMapSet_filter_notpred
      · intro e he hek
        cases hpred : (e.2.name == g.name) with
        | false => rfl
        | true =>
          exfalso
          have hmemf : e ∈ m.filter (fun p => p.2.name == g.name) :=
            List.mem_filter.mpr ⟨he, hpred⟩
          rw [hfil] at hmemf
          cases b with
          | false => simp at hmemf
          | true =>
            rcases List.mem_cons.mp hmemf with h1 | h1
            · rw [h1] at hek
              exact hname (colonKey_inj hqcf hp1 hek).2.symm
            · rcases List.mem_cons.mp h1 with h2 | h2
              · rw [h2] at hek
                exact bare_ne_colonKey hgcf hek
              · simp at h2
      · simpa using hbeq
    have hstep2 : (insFn m pf).filter (fun p => p.2.name == g.name) =
        (jsMapSet m (pf.1 ++ ":" ++ pf.2.name) pf.2).filter
          (fun p => p.2.name == g.name) := by
      apply jsMapSet_filter_notpred
      · intro e he hek
        cases hpred : (e.2.name == g.name) with
        | false => rfl
        | true =>
          exfalso
          have hmemf : e ∈ (jsMapSet m (pf.1 ++ ":" ++ pf.2.name) pf.2).filter
              (fun p => p.2.name == g.name) := List.mem_filter.mpr ⟨he, hpred⟩
          rw [hstep1, hfil] at hmemf
          cases b with
          | false => simp at hmemf
          | true =>
            rcases List.mem_cons.mp hmemf with h1 | h1
            · rw [h1] at hek
              exact bare_ne_colonKey hp2 hek.symm
            · rcases List.mem_cons.mp h1 with h2 | h2
              · rw [h2] at hek
                exact hname (hek.symm.trans rfl)
              · simp at h2
      · simpa using hbeq
    rw [hstep2, hstep1, hfil]
  case pos =>
    obtain ⟨hv, hq⟩ := hpu hname
    have hbeq : (pf.2.name == g.name) = true := by simp [hname]
    rw [hbeq, Bool.or_true]
    have hkpath : pf.1 ++ ":" ++ pf.2.name = qpath ++ ":" ++ g.name := by
      rw [hq, hname]
    cases b with
    | true =>
      have hfil' : m.filter (fun p => p.2.name == g.name) =
          [(qpath ++ ":" ++ g.name, g), (g.name, g)] := hfil
      have hK2mem : ((qpath ++ ":" ++ g.name, g) : String × Func) ∈ m :=
        List.mem_of_mem_filter (p := fun p => p.2.name == g.name)
          (by rw [hfil']; exact List.mem_cons_self _ _)
      have hbaremem : ((g.name, g) : String × Func) ∈ m :=
        List.mem_of_mem_filter (p := fun p => p.2.name == g.name)
          (by rw [hfil']; exact List.mem_cons_of_mem _ (List.mem_cons_self _ _))
      have huniqK2 : ∀ e ∈ m, e.1 = qpath ++ ":" ++ g.name →
          e = (qpath ++ ":" ++ g.name, g) := by
        intro e he hek
        have hen : e.2.name = g.name := entry_at_colonKey hqcf (hwf e he) hek
        have hmemf : e ∈ m.filter (fun p => p.2.name == g.name) :=
          List.mem_filter.mpr ⟨he, by simp [hen]⟩
        rw [hfil'] at hmemf
        rcases List.mem_cons.mp hmemf with h1 | h1
        · exact h1
        · rcases List.mem_cons.mp h1 with h2 | h2
          · exfalso
            rw [h2] at hek
            exact bare_ne_colonKey hgcf hek
          · simp at h2
      have huniqBare : ∀ e ∈ m, e.1 = g.name → e = (g.name, g) := by
        intro e he hek
        have hen : e.2.name = g.name := entry_at_bareKey hgcf (hwf e he) hek
        have hmemf : e ∈ m.filter (fun p => p.2.name == g.name) :=
          List.mem_filter.mpr ⟨he, by simp [hen]⟩
        rw [hfil'] at hmemf
        rcases List.mem_cons.mp hmemf with h1 | h1
        · exfalso
          rw [h1] at hek
          exact bare_ne_colonKey hgcf hek.symm
        · rcases List.mem_cons.mp h1 with h2 | h2
          · exact h2
          · simp at h2
      have hm1 : jsMapSet m (pf.1 ++ ":" ++ pf.2.name) pf.2 = m := by
        rw [hkpath, hv]
        exact jsMapSet_stable hK2mem huniqK2
      have hm2 : insFn m pf = m := by
        rw [insFn, hm1, hname, hv]
        exact jsMapSet_stable hbaremem huniqBare
      rw [hm2]
      exact hfil
    | false =>
      have hfil' : m.filter (fun p => p.2.name == g.name) = [] := hfil
      have hfresh1 : m.any (fun p => p.1 == (pf.1 ++ ":" ++ pf.2.name)) = false := by
        cases hany : m.any (fun p => p.1 == (pf.1 ++ ":" ++ pf.2.name)) with
        | false => rfl
        | true =>
          exfalso
          obtain ⟨e, he, hek⟩ := (any_key_iff _ _).mp hany
          have hen : e.2.name = g.name :=
            entry_at_colonKey hqcf (hwf e he) (by rw [hek, hkpath])
          have hmemf : e ∈ m.filter (fun p => p.2.name == g.name) :=
            List.mem_filter.mpr ⟨he, by simp [hen]⟩
          rw [hfil'] at hmemf
          simp at hmemf
      have hm1 : jsMapSet m (pf.1 ++ ":" ++ pf.2.name) pf.2 =
          m ++ [(pf.1 ++ ":" ++ pf.2.name, pf.2)] := jsMapSet_fresh hfresh1
      have hfresh2 : (m ++ [(pf.1 ++ ":" ++ pf.2.name, pf.2)]).any
          (fun p => p.1 == pf.2.name) = false := by
        cases hany : (m ++ [(pf.1 ++ ":" ++ pf.2.name, pf.2)]).any
            (fun p => p.1 == pf.2.name) with
        | false => rfl
        | true =>
          exfalso
          obtain ⟨e, he, hek⟩ := (any_key_iff _ _).mp hany
          rcases List.mem_append.mp he with h1 | h1
          · have hen : e.2.name = g.name :=
              entry_at_bareKey hgcf (hwf e h1) (by rw [hek, hname])
            have hmemf : e ∈ m.filter (fun p => p.2.name == g.name) :=
              List.mem_filter.mpr ⟨h1, by simp [hen]⟩
            rw [hfil'] at hmemf
            simp at hmemf
          · simp only [List.mem_singleton] at h1
            rw [h1] at hek
            exact bare_ne_colonKey hp2 hek.symm
      have hm2 : insFn m pf =
          m ++ [(pf.1 ++ ":" ++ pf.2.name, pf.2)] ++ [(pf.2.name, pf.2)] := by
        rw [insFn, hm1]
        exact jsMapSet_fresh hfresh2
      rw [hm2, List.filter_append, List.filter_append, hfil']
      show [] ++ _ ++ _ = _
      rw [List.nil_append]
      rw [List.filter_cons, List.filter_cons]
      simp only [hbeq, if_pos, List.filter_nil]
      rw [hkpath, hname, hv]
      rfl

/-- The registration fold preserves the invariant, and `g`'s entries are
    present exactly when a pair registering `g`'s name was folded. -/
theorem insFold_inv (g : Func) (qpath : String)
    (hgcf : colonFree g.name = true) (hqcf : colonFree qpath = true) :
    ∀ (pairs : List (String × Func)) (m : List (String × Func)) (b : Bool),
      (∀ pf ∈ pairs, colonFree pf.1 = true ∧ colonFree pf.2.name = true ∧
        (pf.2.name = g.name → pf.2 = g ∧ pf.1 = qpath)) →
      fnMapInv g qpath m b →
      fnMapInv g qpath (pairs.foldl insFn m)
        (b || pairs.any (fun pf => pf.2.name == g.name)) := by
  intro pairs
  induction pairs with
  | nil => intro m b _ h; simpa using h
  | cons pf rest ih =>
    intro m b hps hinv
    simp only [List.foldl_cons, List.any_cons]
    have hpf := hps pf (List.mem_cons_self _ _)
    have h1 := insFn_inv g qpath hgcf hqcf pf hpf.1 hpf.2.1 hpf.2.2 m b hinv
    have h2 := ih _ _ (fun x hx => hps x (List.mem_cons_of_mem _ hx)) h1
    rwa [Bool.or_assoc] at h2

/-- The nested registration loop equals the fold over the flattened
    (path, function) pairs. -/
theorem buildFunctionMap_eq (files : List FileAnalysis) :
    buildFunctionMap files = (filePairs files).foldl insFn [] := by
  suffices h : ∀ (fs : List FileAnalysis) (acc : List (String × Func)),
      fs.foldl (fun m file => file.functions.foldl (fun m func =>
        jsMapSet (jsMapSet m (file.path ++ ":" ++ func.name) func) func.name func) m)
        acc = (filePairs fs).foldl insFn acc from h files []
  intro fs
  induction fs with
  | nil => intro acc; rfl
  | cons file rest ih =>
    intro acc
    rw [List.foldl_cons,
      show filePairs (file :: rest) =
        file.functions.map (fun fn => (file.path, fn)) ++ filePairs rest from rfl,
      List.foldl_append, ← ih]
    congr 1
    rw [List.foldl_map]
    rfl

/-- Claim C10: if `f` lives in file `P`, a distinct file `Q` holds the
    only function named `g.name` in the corpus, `g` lists `f`'s name
    among its calls, and `f` starts with no backlinks, then after the
    call-dependency analysis `f`'s `calledBy` contains `g`'s name exactly
    twice — once through `g`'s path-qualified map key and once through
    its bare-name key (paths and names being colon-free). -/
theorem C10_theorem (files : List FileAnalysis) (fileP fileQ : FileAnalysis)
    (f g : Func)
    (hP : fileP ∈ files) (hQ : fileQ ∈ files)
    (hfP : f ∈ fileP.functions) (hgQ : g ∈ fileQ.functions)
    (hpaths : fileP.path ≠ fileQ.path)
    (hcalls : f.name ∈ g.calls)
    (hcb : f.calledBy = [])
    (hcolon : ∀ file ∈ files, colonFree file.path = true ∧
      ∀ fn ∈ file.functions, colonFree fn.name = true)
    (huniq : ∀ file ∈ files, ∀ fn ∈ file.functions, fn.name = g.name →
      fn = g ∧ file.path = fileQ.path) :
    ∃ file' ∈ analyzeCallDependencies files, file'.path = fileP.path ∧
      ∃ f' ∈ file'.functions, f'.name = f.name ∧
        f'.calledBy.count g.name = 2 := by
  have hgcf : colonFree g.name = true := (hcolon fileQ hQ).2 g hgQ
  have hqcf : colonFree fileQ.path = true := (hcolon fileQ hQ).1
  have hpcf : colonFree fileP.path = true := (hcolon fileP hP).1
  have hpairs : ∀ pf ∈ filePairs files, colonFree pf.1 = true ∧
      colonFree pf.2.name = true ∧
      (pf.2.name = g.name → pf.2 = g ∧ pf.1 = fileQ.path) := by
    intro pf hpf
    rw [filePairs, List.mem_flatMap] at hpf
    obtain ⟨file, hfile, hpf2⟩ := hpf
    rw [List.mem_map] at hpf2
    obtain ⟨fn, hfn, hfneq⟩ := hpf2
    subst hfneq
    exact ⟨(hcolon file hfile).1, (hcolon file hfile).2 fn hfn,
      fun hname => huniq file hfile fn hfn hname⟩
  have hpair : (fileQ.path, g) ∈ filePairs files := by
    rw [filePairs, List.mem_flatMap]
    exact ⟨fileQ, hQ, List.mem_map.mpr ⟨g, hgQ, rfl⟩⟩
  have hany : (filePairs files).any (fun pf => pf.2.name == g.name) = true :=
    List.any_eq_true.mpr ⟨(fileQ.path, g), hpair, by simp⟩
  have hfinal := insFold_inv g fileQ.path hgcf hqcf (filePairs files) [] false
    hpairs ⟨by simp, by simp, by simp⟩
  rw [hany, Bool.false_or] at hfinal
  have hfilter : (buildFunctionMap files).filter (fun p => p.2.name == g.name) =
      [(fileQ.path ++ ":" ++ g.name, g), (g.name, g)] := by
    rw [buildFunctionMap_eq]
    exact hfinal.2.2
  have hcond1 : (g.calls.contains f.name &&
      (fileQ.path ++ ":" ++ g.name != fileP.path ++ ":" ++ f.name)) = true := by
    rw [Bool.and_eq_true]
    constructor
    · simpa [List.elem_iff] using hcalls
    · rw [bne_iff_ne]
      intro heq
      exact hpaths ((colonKey_inj hqcf hpcf heq).1.symm)
  have hcond2 : (g.calls.contains f.name &&
      (g.name != fileP.path ++ ":" ++ f.name)) = true := by
    rw [Bool.and_eq_true]
    constructor
    · simpa [List.elem_iff] using hcalls
    · rw [bne_iff_ne]
      exact bare_ne_colonKey hgcf
  have hcount : (((buildFunctionMap files).filter (fun p =>
      p.2.calls.contains f.name && p.1 != fileP.path ++ ":" ++ f.name)).map
        (fun p => p.2.name)).count g.name = 2 := by
    rw [List.count_eq_countP, List.countP_map, List.countP_filter]
    rw [List.countP_congr (q := fun p : String × Func =>
      ((p.2.calls.contains f.name && p.1 != fileP.path ++ ":" ++ f.name) &&
        (p.2.name == g.name)))]
    · rw [← List.countP_filter, hfilter]
      rw [List.countP_cons, List.countP_cons, List.countP_nil]
      simp only [hcond1, hcond2, if_pos]
    · intro p _
      simp only [Function.comp_apply]
      rw [Bool.and_comm]
  rw [show analyzeCallDependencies files = files.map (fun file =>
      { file with functions := file.functions.map (fun func =>
          { func with calledBy := func.calledBy ++
              (((buildFunctionMap files).filter (fun p =>
                  p.2.calls.contains func.name &&
                    p.1 != file.path ++ ":" ++ func.name)).map
                (fun p => p.2.name)) }) }) from rfl]
  refine ⟨_, List.mem_map_of_mem _ hP, rfl, ?_⟩
  refine ⟨_, List.mem_map_of_mem _ hfP, rfl, ?_⟩
  show (f.calledBy ++ _).count g.name = 2
  rw [hcb, List.nil_append]
  exact hcount

/-- The claim C10 witness corpus: `alpha` in `p.ts`, its unique caller
    `beta` in `q.ts`. -/
def c10Files : List FileAnalysis :=
  [⟨"p.ts", [{ name := "alpha", calls := [] }]⟩,
   ⟨"q.ts", [{ name := "beta", calls := ["alpha"] }]⟩]

/-- Witness for claim C10's theorem at the concrete corpus. -/
theorem C10_witness :
    ((⟨"p.ts", [{ name := "alpha", calls := [] }]⟩ : FileAnalysis) ∈ c10Files ∧
      (⟨"q.ts", [{ name := "beta", calls := ["alpha"] }]⟩ : FileAnalysis) ∈ c10Files ∧
      ("p.ts" : String) ≠ "q.ts" ∧
      ("alpha" : String) ∈ ["alpha"]) ∧
    ∃ file' ∈ analyzeCallDependencies c10Files, file'.path = "p.ts" ∧
      ∃ f' ∈ file'.functions, f'.name = "alpha" ∧
        f'.calledBy.count "beta" = 2 :=
  ⟨⟨by decide, by decide, by decide, by decide⟩,
    C10_theorem c10Files
      ⟨"p.ts", [{ name := "alpha", calls := [] }]⟩
      ⟨"q.ts", [{ name := "beta", calls := ["alpha"] }]⟩
      { name := "alpha", calls := [] } { name := "beta", calls := ["alpha"] }
      (by decide) (by decide) (by decide) (by decide) (by decide) (by decide)
      (by decide) (by decide) (by decide)⟩
